import Mathlib

/-!
# Verification of the CIB Pop Write entity-substitution core

Shallow embedding of the repository's HOCR encoder, entity-annotation
decoders and pseudonymization/substitution engine
(`src/worker/src/index.js`, the frontend workflow script, and the
standalone HOCR parser `parse_hocr_directly.js`).

JavaScript strings are modelled as Lean `String`/`List Char`; JS objects
used as string-keyed maps are modelled as insertion-ordered association
lists (`List (String × String)`), matching `Object.entries` iteration
order with last-writer-wins updates.  The JS regular-expression calls of
the code are modelled by explicit scanners: every regex in the source is
either an escaped literal (via `escapeRegExp`), a literal with the one
metacharacter `.`, or one of four fixed patterns that are implemented
here as dedicated matchers.
-/

set_option maxRecDepth 16384

namespace CibPop

/-- JS `\s` character class (the whitespace characters recognised by the
`split(/\s+/)`, `trim()` and `\s` uses in the source): ASCII whitespace,
NBSP and the common Unicode space separators. -/
def isJsWs (c : Char) : Bool :=
  c = ' ' || c = '\t' || c = '\n' || c = '\r' || c = '\x0b' || c = '\x0c' ||
  c = ' ' || c = ' ' || c = ' ' || c = ' ' || c = ' ' ||
  c = ' ' || c = ' ' || c = ' ' || c = ' ' || c = ' ' ||
  c = ' ' || c = ' ' || c = ' ' || c = ' ' || c = ' ' ||
  c = ' ' || c = ' ' || c = '　' || c = '﻿'

def isAsciiUpper (c : Char) : Bool := 'A' ≤ c && c ≤ 'Z'

def isAsciiLower (c : Char) : Bool := 'a' ≤ c && c ≤ 'z'

def isAsciiAlpha (c : Char) : Bool := isAsciiUpper c || isAsciiLower c

def isDigitB (c : Char) : Bool := '0' ≤ c && c ≤ '9'

/-- JS `\w` character class (no `u` flag): `[A-Za-z0-9_]`. -/
def isJsWordChar (c : Char) : Bool := isAsciiAlpha c || isDigitB c || c = '_'

/-- Case-insensitive character comparison, modelling the `i` regex flag
(JS `toLowerCase` on the ASCII range). -/
def ciEqB (a b : Char) : Bool := a.toLower = b.toLower

/-- `prefEqBy eq pat cs`: the word `pat` matches the front of `cs`
character-by-character under comparison `eq`. -/
def prefEqBy (eq : Char → Char → Bool) : List Char → List Char → Bool
  | [], _ => true
  | _ :: _, [] => false
  | p :: ps, c :: cs => eq p c && prefEqBy eq ps cs

/-- Substring test at any position (model of JS `String.includes`). -/
def containsSub (cs pat : List Char) : Bool :=
  decide (∃ i < cs.length + 1, prefEqBy (fun a b => a = b) pat (cs.drop i) = true)

/-- Model of JS `String.includes`. -/
def jsIncludes (s pat : String) : Bool := containsSub s.data pat.data

/-- Model of JS `String.trim` (drops `\s` characters from both ends). -/
def jsTrim (s : String) : String :=
  ⟨((s.data.dropWhile isJsWs).reverse.dropWhile isJsWs).reverse⟩

/-- Model of JS `String.toUpperCase` on the ASCII range. -/
def jsToUpper (s : String) : String := ⟨s.data.map Char.toUpper⟩

/-- Global literal search-and-replace under character comparison `eq`:
the model of JS `String.replace(new RegExp(escapeRegExp(pat), flags), rep)`
(`escapeRegExp` makes the pattern a literal; `eq` is chosen per the `i`
flag).  Scanning is left to right; the replacement is emitted and never
rescanned, and scanning resumes after the matched segment, as in JS. -/
def replaceAllByF (eq : Char → Char → Bool) (pat rep : List Char) : Nat → List Char → List Char
  | _, [] => []
  | 0, l => l
  | fuel + 1, c :: rest =>
    if prefEqBy eq pat (c :: rest) then
      rep ++ replaceAllByF eq pat rep fuel (rest.drop (pat.length - 1))
    else
      c :: replaceAllByF eq pat rep fuel rest

def replaceAllBy (eq : Char → Char → Bool) (pat rep cs : List Char) : List Char :=
  replaceAllByF eq pat rep cs.length cs

/-- Case-insensitive global literal replace: JS `replace(/pat/gi, rep)`
with an escaped pattern. -/
def replaceAllCI (pat rep cs : List Char) : List Char := replaceAllBy ciEqB pat rep cs

/-- Case-sensitive global literal replace: JS `replace(/pat/g, rep)`
with an escaped pattern. -/
def replaceAllCS (pat rep cs : List Char) : List Char :=
  replaceAllBy (fun a b => a = b) pat rep cs

/-- The literal marker of the annotation-cleanup regex
`/\[ChatGPT Verbesserung:[^\]]+\]/g` shared by `restoreOriginalEntities`
and `simulateVibeTexting`. -/
def chatGptMarker : List Char := "[ChatGPT Verbesserung:".data

/-- Length of a match of `/\[ChatGPT Verbesserung:[^\]]+\]/` at the head
of `cs`, if any: the literal marker, one or more non-`]` characters,
then `]`. -/
def chatGptMatchLen (cs : List Char) : Option Nat :=
  if chatGptMarker.isPrefixOf cs then
    let after := cs.drop chatGptMarker.length
    let run := after.takeWhile (fun c => c ≠ ']')
    match after.drop run.length with
    | ']' :: _ => if run.length ≥ 1 then some (chatGptMarker.length + run.length + 1) else none
    | _ => none
  else none

/-- Global deletion of `/\[ChatGPT Verbesserung:[^\]]+\]/g` matches. -/
def stripChatGptTagsF : Nat → List Char → List Char
  | _, [] => []
  | 0, l => l
  | fuel + 1, c :: rest =>
    match chatGptMatchLen (c :: rest) with
    | some n => stripChatGptTagsF fuel (rest.drop (n - 1))
    | none => c :: stripChatGptTagsF fuel rest

def stripChatGptTags (cs : List Char) : List Char := stripChatGptTagsF cs.length cs

/-- Insertion of a key into a JS object modelled as an insertion-ordered
association list: an existing key keeps its position and gets the new
value, a fresh key is appended. -/
def jsObjInsert (m : List (String × String)) (k v : String) : List (String × String) :=
  if m.any (fun kv => kv.1 = k) then
    m.map (fun kv => if kv.1 = k then (k, v) else kv)
  else m ++ [(k, v)]

/-- The placeholder chosen for an entity type by the keyword matching
inlined in `createPseudonymizedText` and `restoreOriginalEntities`
(src/worker/src/index.js lines 858-872 and 906-920). -/
def entityPlaceholder (entityType : String) : String :=
  if jsIncludes entityType "name" then "[PERSON]"
  else if jsIncludes entityType "number" || jsIncludes entityType "id" then "[NUMMER]"
  else if jsIncludes entityType "email" then "[EMAIL]"
  else if jsIncludes entityType "address" then "[ADRESSE]"
  else if jsIncludes entityType "phone" then "[TELEFON]"
  else "[" ++ jsToUpper entityType ++ "]"

/-- `createPseudonymizedText` (src/worker/src/index.js lines 852-881):
for each mapping entry whose value is truthy and trims non-empty,
replace every case-insensitive occurrence of the value by the
type-derived placeholder. -/
def createPseudonymizedText (text : String) (entityMappings : List (String × String)) : String :=
  entityMappings.foldl
    (fun pseudonymized kv =>
      if kv.2 ≠ "" ∧ jsTrim kv.2 ≠ "" then
        ⟨replaceAllCI kv.2.data (entityPlaceholder kv.1).data pseudonymized.data⟩
      else pseudonymized)
    text

/-- `\b` test: the scan position follows a non-word character (or is the
start of input). -/
def atWordB (prev : Option Char) : Bool :=
  match prev with
  | none => true
  | some p => !isJsWordChar p

/-- Generic left-to-right global regex replace driven by a matcher that
sees the previous input character (for `\b`) and the remaining input,
and returns the match length at that position.  Models JS
`String.replace(/re/g, rep)` for the fixed heuristic patterns below:
scanning resumes after a match, replacements are never rescanned, and a
zero-length match consumes one input character, as in JS. -/
def scanRepF (m : Option Char → List Char → Option Nat) (rep : List Char) :
    Nat → Option Char → List Char → List Char
  | _, prev, [] => match m prev [] with | some _ => rep | none => []
  | 0, _, l => l
  | fuel + 1, prev, c :: rest =>
    match m prev (c :: rest) with
    | none => c :: scanRepF m rep fuel (some c) rest
    | some 0 => rep ++ c :: scanRepF m rep fuel (some c) rest
    | some (n + 1) => rep ++ scanRepF m rep fuel (some ((c :: rest).getD n c)) (rest.drop n)

def scanRep (m : Option Char → List Char → Option Nat) (rep : List Char)
    (prev : Option Char) (cs : List Char) : List Char :=
  scanRepF m rep cs.length prev cs

/-- Matcher for `/\b[A-Z][a-z]+\s+[A-Z][a-z]+\b/` at the current
position (the capitalized two-word heuristic of
`simulatePseudonymization`). -/
def personMatch (prev : Option Char) (cs : List Char) : Option Nat :=
  if !atWordB prev then none else
  match cs with
  | [] => none
  | c1 :: rest1 =>
    if isAsciiUpper c1 then
      let low1 := rest1.takeWhile isAsciiLower
      if low1 = [] then none else
      let rest2 := rest1.drop low1.length
      let ws := rest2.takeWhile isJsWs
      if ws = [] then none else
      let rest3 := rest2.drop ws.length
      match rest3 with
      | [] => none
      | c2 :: rest4 =>
        if isAsciiUpper c2 then
          let low2 := rest4.takeWhile isAsciiLower
          if low2 = [] then none else
          let rest5 := rest4.drop low2.length
          if (match rest5 with | [] => true | d :: _ => !isJsWordChar d) then
            some (1 + low1.length + ws.length + 1 + low2.length)
          else none
        else none
    else none

/-- Matcher for `/\b\d{4,}\b/` at the current position. -/
def numMatch (prev : Option Char) (cs : List Char) : Option Nat :=
  if !atWordB prev then none else
  let ds := cs.takeWhile isDigitB
  if decide (ds.length ≥ 4) &&
      (match cs.drop ds.length with | [] => true | d :: _ => !isJsWordChar d) then
    some ds.length
  else none

/-- Character class `[a-zA-Z0-9.-]` of the email heuristic. -/
def isEmailClass (c : Char) : Bool := isAsciiAlpha c || isDigitB c || c = '.' || c = '-'

/-- Matcher for `/@[a-zA-Z0-9.-]+\.[a-zA-Z]{2,}/` at the current
position.  The greedy class run backtracks to the rightmost interior
`.` that is followed by at least two letters, as the JS engine does. -/
def emailMatch (_prev : Option Char) (cs : List Char) : Option Nat :=
  match cs with
  | '@' :: rest =>
    let run := rest.takeWhile isEmailClass
    let cands := (List.range run.length).filter (fun m =>
      decide (1 ≤ m) && (run.getD m ' ' = '.') &&
      decide (2 ≤ ((run.drop (m + 1)).takeWhile isAsciiAlpha).length))
    match cands.getLast? with
    | some m => some (1 + m + 1 + ((run.drop (m + 1)).takeWhile isAsciiAlpha).length)
    | none => none
  | _ => none

/-- `simulatePseudonymization` (frontend script; also
src/worker/src/index.js lines 805-811): the fixed regex heuristics
applied in source order. -/
def simulatePseudonymization (text : String) : String :=
  let t1 := scanRep personMatch "[PERSON]".data none text.data
  let t2 := scanRep numMatch "[NUMMER]".data none t1
  let t3 := scanRep emailMatch "[EMAIL]".data none t2
  ⟨t3⟩

/-- `simulateVibeTexting` (src/worker/src/index.js lines 987-994): the
fixed, unconditional replacement table followed by annotation
cleanup. -/
def simulateVibeTexting (text : String) : String :=
  let t1 := replaceAllCS "[PERSON]".data "Max Mustermann".data text.data
  let t2 := replaceAllCS "[NUMMER]".data "12345".data t1
  let t3 := replaceAllCS "[EMAIL]".data "beispiel@email.de".data t2
  ⟨stripChatGptTags t3⟩

/-- `restoreOriginalEntities` (src/worker/src/index.js lines 893-936):
with an empty mapping fall back to `simulateVibeTexting`; otherwise
build the placeholder → original-value object (later entries with the
same placeholder overwrite earlier ones), replace each placeholder
case-insensitively by its value, then strip ChatGPT annotations. -/
def restoreOriginalEntities (text : String) (entityMappings : List (String × String)) : String :=
  if entityMappings = [] then simulateVibeTexting text
  else
    let placeholderMap := entityMappings.foldl
      (fun pm kv =>
        if kv.2 ≠ "" ∧ jsTrim kv.2 ≠ "" then
          jsObjInsert pm (entityPlaceholder kv.1) kv.2
        else pm)
      []
    let restored := placeholderMap.foldl
      (fun r pv => ⟨replaceAllCI pv.1.data pv.2.data r.data⟩) text
    ⟨stripChatGptTags restored.data⟩

/-! ## The /hocr endpoint's unescaped-regex substitution

`handleHocrEndpoint` (src/worker/src/index.js lines 150-153) and `main`
(lines 110-113) build the response's `pseudonymizedText` with
`text.replace(new RegExp(key, 'g'), value)` — the mapping key is NOT
passed through `escapeRegExp` and the flags are only `g`.  The regex
engine is modelled for the fragment actually exercised here: literal
characters plus the `.` wildcard (any character except a line
terminator). -/

inductive RegTok where
  | dot
  | lit (c : Char)
deriving DecidableEq

def regToks (pat : List Char) : List RegTok :=
  pat.map (fun c => if c = '.' then RegTok.dot else RegTok.lit c)

def isLineTerm (c : Char) : Bool := c = '\n' || c = '\r' || c = ' ' || c = ' '

def regMatchAt : List RegTok → List Char → Bool
  | [], _ => true
  | _ :: _, [] => false
  | RegTok.dot :: ts, d :: cs => !isLineTerm d && regMatchAt ts cs
  | RegTok.lit c :: ts, d :: cs => c = d && regMatchAt ts cs

/-- Global replace for the tokenized pattern, with JS `g`-flag scanning
(a zero-length match consumes one character of input). -/
def replaceRegexGF (toks : List RegTok) (rep : List Char) : Nat → List Char → List Char
  | _, [] => if toks = [] then rep else []
  | 0, l => l
  | fuel + 1, c :: rest =>
    if regMatchAt toks (c :: rest) then
      if toks = [] then rep ++ c :: replaceRegexGF toks rep fuel rest
      else rep ++ replaceRegexGF toks rep fuel (rest.drop (toks.length - 1))
    else c :: replaceRegexGF toks rep fuel rest

def replaceRegexG (toks : List RegTok) (rep cs : List Char) : List Char :=
  replaceRegexGF toks rep cs.length cs

/-- The `pseudonymizedText` computed by the /hocr endpoint
(src/worker/src/index.js lines 150-153): each mapping key is used as an
unescaped case-sensitive regular expression and every match is replaced
by the mapping value (the full entity id). -/
def hocrPseudonymizedText (text : String) (entityMappings : List (String × String)) : String :=
  entityMappings.foldl (fun t kv => ⟨replaceRegexG (regToks kv.1.data) kv.2.data t.data⟩) text

/-! ## Lemmas about the literal replace scanner -/

theorem replaceAllByF_nil (eq : Char → Char → Bool) (pat rep : List Char) (fuel : Nat) :
    replaceAllByF eq pat rep fuel [] = [] := by
  cases fuel <;> rfl

theorem replaceAllByF_cons (eq : Char → Char → Bool) (pat rep : List Char) (fuel : Nat)
    (c : Char) (rest : List Char) :
    replaceAllByF eq pat rep (fuel + 1) (c :: rest) =
      if prefEqBy eq pat (c :: rest) then
        rep ++ replaceAllByF eq pat rep fuel (rest.drop (pat.length - 1))
      else
        c :: replaceAllByF eq pat rep fuel rest := rfl

/-- A pattern no longer than `v` reads only `v` when matched against
`v ++ rest`. -/
theorem prefEqBy_append_left (eq : Char → Char → Bool) :
    ∀ (pat v rest : List Char), pat.length ≤ v.length →
      prefEqBy eq pat (v ++ rest) = prefEqBy eq pat v
  | [], _, _, _ => by simp [prefEqBy]
  | _ :: _, [], _, h => by simp at h
  | p :: ps, c :: cs, rest, h => by
    simp only [List.cons_append, prefEqBy, List.append_eq]
    rw [prefEqBy_append_left eq ps cs rest (by simpa using h)]

/-- The scanner's output does not depend on the fuel once the fuel
covers the input length. -/
theorem replaceAllByF_irrel (eq : Char → Char → Bool) (pat rep : List Char) :
    ∀ (n : Nat) (cs : List Char), cs.length ≤ n →
      ∀ (f₁ f₂ : Nat), cs.length ≤ f₁ → cs.length ≤ f₂ →
        replaceAllByF eq pat rep f₁ cs = replaceAllByF eq pat rep f₂ cs := by
  intro n
  induction n with
  | zero =>
    intro cs h f₁ f₂ _ _
    have : cs = [] := List.length_eq_zero.mp (Nat.le_zero.mp h)
    subst this
    rw [replaceAllByF_nil, replaceAllByF_nil]
  | succ n ih =>
    intro cs h f₁ f₂ h₁ h₂
    cases cs with
    | nil => rw [replaceAllByF_nil, replaceAllByF_nil]
    | cons c rest =>
      simp only [List.length_cons] at h h₁ h₂
      obtain ⟨g₁, rfl⟩ : ∃ g, f₁ = g + 1 := ⟨f₁ - 1, by omega⟩
      obtain ⟨g₂, rfl⟩ : ∃ g, f₂ = g + 1 := ⟨f₂ - 1, by omega⟩
      rw [replaceAllByF_cons, replaceAllByF_cons]
      by_cases hm : prefEqBy eq pat (c :: rest) = true
      · rw [if_pos hm, if_pos hm]
        have hld := List.length_drop (pat.length - 1) rest
        have hd : (rest.drop (pat.length - 1)).length ≤ n := by omega
        have hb1 : (rest.drop (pat.length - 1)).length ≤ g₁ := by omega
        have hb2 : (rest.drop (pat.length - 1)).length ≤ g₂ := by omega
        rw [ih _ hd _ _ hb1 hb2]
      · rw [if_neg hm, if_neg hm]
        rw [ih rest (by omega) g₁ g₂ (by omega) (by omega)]

/-- A text with no match anywhere is left unchanged. -/
theorem replaceAllByF_nomatch (eq : Char → Char → Bool) (pat rep : List Char) :
    ∀ (fuel : Nat) (cs : List Char), cs.length ≤ fuel →
      (∀ i, i < cs.length → prefEqBy eq pat (cs.drop i) = false) →
      replaceAllByF eq pat rep fuel cs = cs := by
  intro fuel
  induction fuel with
  | zero =>
    intro cs h _
    have : cs = [] := List.length_eq_zero.mp (Nat.le_zero.mp h)
    subst this
    rfl
  | succ f ih =>
    intro cs h hall
    cases cs with
    | nil => rfl
    | cons c rest =>
      rw [replaceAllByF_cons]
      have h0 : prefEqBy eq pat (c :: rest) = false := by
        simpa using hall 0 (by simp)
      rw [if_neg (by simp [h0])]
      congr 1
      refine ih rest (by simpa using Nat.lt_succ_iff.mp (Nat.lt_of_lt_of_le (Nat.lt_succ_of_le (Nat.le_refl _)) (by simpa using h))) ?_
      intro i hi
      have := hall (i + 1) (by simpa using Nat.succ_lt_succ hi)
      simpa using this

/-- Decomposition: when the pattern matches exactly the block `v` at
position `s0.length` and at no earlier position, one replacement is
emitted for that block and scanning continues after it. -/
theorem replaceAllBy_decomp (eq : Char → Char → Bool) (pat rep : List Char) (hne : pat ≠ []) :
    ∀ (s0 v rest : List Char), v.length = pat.length →
      prefEqBy eq pat v = true →
      (∀ i, i < s0.length → prefEqBy eq pat (List.drop i (s0 ++ (v ++ rest))) = false) →
      replaceAllBy eq pat rep (s0 ++ (v ++ rest)) = s0 ++ (rep ++ replaceAllBy eq pat rep rest)
  | [], v, rest, hlen, hv, _ => by
    obtain ⟨c, v', rfl⟩ : ∃ c v', v = c :: v' := by
      cases v with
      | nil =>
        cases pat with
        | nil => exact absurd rfl hne
        | cons p ps => simp at hlen
      | cons c v' => exact ⟨c, v', rfl⟩
    simp only [List.nil_append]
    unfold replaceAllBy
    rw [List.cons_append]
    rw [show ((c : Char) :: (v' ++ rest)).length = (v' ++ rest).length + 1 from rfl]
    rw [replaceAllByF_cons]
    have hm : prefEqBy eq pat (c :: (v' ++ rest)) = true := by
      rw [show (c :: (v' ++ rest)) = (c :: v') ++ rest from rfl]
      rw [prefEqBy_append_left eq pat (c :: v') rest (le_of_eq hlen.symm)]
      exact hv
    rw [if_pos hm]
    have hv' : pat.length - 1 = v'.length := by
      simp only [List.length_cons] at hlen
      omega
    rw [hv', List.drop_left v' rest]
    congr 1
    exact replaceAllByF_irrel eq pat rep ((v' ++ rest).length) rest
      (by simp) _ _ (by simp) (Nat.le_refl _)
  | c :: s0', v, rest, hlen, hv, hall => by
    have h0 := hall 0 (by simp)
    rw [List.drop_zero, List.cons_append] at h0
    unfold replaceAllBy
    simp only [List.cons_append]
    rw [show ((c : Char) :: (s0' ++ (v ++ rest))).length = (s0' ++ (v ++ rest)).length + 1 from rfl]
    rw [replaceAllByF_cons, if_neg (by simp [h0])]
    have hrec := replaceAllBy_decomp eq pat rep hne s0' v rest hlen hv
      (fun i hi => by
        have := hall (i + 1) (by simpa using Nat.succ_lt_succ hi)
        simpa using this)
    unfold replaceAllBy at hrec
    rw [hrec]

/-- A text built as alternating clean segments and pattern-matching
blocks: `altPairs [(s₁,w₁),…,(sₙ,wₙ)] last = s₁ ++ w₁ ++ … ++ sₙ ++ wₙ ++ last`. -/
def altPairs : List (List Char × List Char) → List Char → List Char
  | [], last => last
  | (s, w) :: ps, last => s ++ (w ++ altPairs ps last)

/-- The same alternation with every block replaced by `rep`. -/
def uniPairs (rep : List Char) : List (List Char × List Char) → List Char → List Char
  | [], last => last
  | (s, _) :: ps, last => s ++ (rep ++ uniPairs rep ps last)

/-- The occurrence bookkeeping for `altPairs`: each block matches the
pattern exactly, and the pattern matches at no position strictly inside
a segment, nor anywhere in the final segment. -/
def cleanPairsB (eq : Char → Char → Bool) (pat : List Char) :
    List (List Char × List Char) → List Char → Bool
  | [], last => decide (∀ i, i < last.length → prefEqBy eq pat (last.drop i) = false)
  | (s, w) :: ps, last =>
    decide (w.length = pat.length) && prefEqBy eq pat w &&
    decide (∀ i, i < s.length →
      prefEqBy eq pat (List.drop i (s ++ (w ++ altPairs ps last))) = false) &&
    cleanPairsB eq pat ps last

/-- Global replace over an alternation text: every block is replaced,
every segment is kept. -/
theorem replaceAllBy_altPairs (eq : Char → Char → Bool) (pat rep : List Char) (hne : pat ≠ []) :
    ∀ (ps : List (List Char × List Char)) (last : List Char),
      cleanPairsB eq pat ps last = true →
      replaceAllBy eq pat rep (altPairs ps last) = uniPairs rep ps last
  | [], last, h => by
    simp only [cleanPairsB, decide_eq_true_eq] at h
    simp only [altPairs, uniPairs]
    unfold replaceAllBy
    exact replaceAllByF_nomatch eq pat rep last.length last (Nat.le_refl _) h
  | (s, w) :: ps, last, h => by
    simp only [cleanPairsB, Bool.and_eq_true, decide_eq_true_eq] at h
    obtain ⟨⟨⟨hlen, hw⟩, hclean⟩, hrest⟩ := h
    simp only [altPairs, uniPairs]
    rw [replaceAllBy_decomp eq pat rep hne s w (altPairs ps last) hlen hw hclean]
    rw [replaceAllBy_altPairs eq pat rep hne ps last hrest]

theorem data_ne_nil_of_ne_empty {s : String} (h : s ≠ "") : s.data ≠ [] := by
  intro hd
  apply h
  cases s with
  | mk data => simp only at hd; subst hd; rfl

theorem uniPairs_eq_altPairs (rep : List Char) :
    ∀ (ps : List (List Char × List Char)) (last : List Char),
      uniPairs rep ps last = altPairs (ps.map fun p => (p.1, rep)) last
  | [], _ => rfl
  | (s, w) :: ps, last => by
    simp only [uniPairs, altPairs, List.map_cons]
    rw [uniPairs_eq_altPairs rep ps last]

theorem entityPlaceholder_data_ne_nil (l : String) : (entityPlaceholder l).data ≠ [] := by
  unfold entityPlaceholder
  repeat' split
  any_goals decide
  intro h
  rw [String.data_append, String.data_append] at h
  simp at h

/-- Evaluating `createPseudonymizedText` at a one-entry mapping with a
non-blank value: a single case-insensitive global replace. -/
theorem createPseudonymizedText_singleton (text : String) (l v : String)
    (hv1 : v ≠ "") (hv2 : jsTrim v ≠ "") :
    createPseudonymizedText text [(l, v)] =
      ⟨replaceAllCI v.data (entityPlaceholder l).data text.data⟩ := by
  simp only [createPseudonymizedText, List.foldl]
  rw [if_pos ⟨hv1, hv2⟩]

/-- Evaluating `restoreOriginalEntities` at a one-entry mapping with a
non-blank value: one case-insensitive global replace of the placeholder
followed by annotation cleanup. -/
theorem restoreOriginalEntities_singleton (text : String) (l v : String)
    (hv1 : v ≠ "") (hv2 : jsTrim v ≠ "") :
    restoreOriginalEntities text [(l, v)] =
      ⟨stripChatGptTags (replaceAllCI (entityPlaceholder l).data v.data text.data)⟩ := by
  simp only [restoreOriginalEntities, List.foldl, jsObjInsert]
  rw [if_neg (by simp)]
  rw [if_pos ⟨hv1, hv2⟩]
  simp

/-! ## Claim C1 — restore after pseudonymize -/

/-- C1, counterexample: the claim "for every entity mapping `M` (values
non-empty after trimming) and every text `T` containing the mapped
spans, `restoreOriginalEntities (createPseudonymizedText T M) M = T`"
fails at `M = {first_name ↦ Korben, last_name ↦ Dallas}`,
`T = "Korben Dallas"`: both labels contain `name`, so both values are
pseudonymized to the single placeholder `[PERSON]`, whose reverse entry
is overwritten by the later mapping entry; the round trip returns
`"Dallas Dallas"`. -/
theorem C1_counterexample :
    restoreOriginalEntities
        (createPseudonymizedText "Korben Dallas"
          [("first_name", "Korben"), ("last_name", "Dallas")])
        [("first_name", "Korben"), ("last_name", "Dallas")]
      ≠ "Korben Dallas" := by decide

/-- C1 (amended): for a ONE-ENTRY mapping `{l ↦ v}` with `v` non-empty
after trimming, and a text that is an alternation of segments and
exact occurrences of `v` such that (i) `v` matches case-insensitively
exactly at the marked blocks and nowhere else, (ii) the derived
placeholder likewise matches the pseudonymized text only at its blocks,
and (iii) the text is unchanged by the ChatGPT-annotation cleanup, the
round trip `restoreOriginalEntities ∘ createPseudonymizedText` is the
identity. -/
theorem C1_roundtrip_singleton (l v : String) (segs : List String) (last : String)
    (hv1 : v ≠ "") (hv2 : jsTrim v ≠ "")
    (hfwd : cleanPairsB ciEqB v.data
      (segs.map fun s => (s.data, v.data)) last.data = true)
    (hbwd : cleanPairsB ciEqB (entityPlaceholder l).data
      (segs.map fun s => (s.data, (entityPlaceholder l).data)) last.data = true)
    (hstrip : stripChatGptTags (altPairs (segs.map fun s => (s.data, v.data)) last.data)
      = altPairs (segs.map fun s => (s.data, v.data)) last.data) :
    restoreOriginalEntities
        (createPseudonymizedText
          ⟨altPairs (segs.map fun s => (s.data, v.data)) last.data⟩ [(l, v)])
        [(l, v)]
      = ⟨altPairs (segs.map fun s => (s.data, v.data)) last.data⟩ := by
  have hvd : v.data ≠ [] := data_ne_nil_of_ne_empty hv1
  have hpd : (entityPlaceholder l).data ≠ [] := entityPlaceholder_data_ne_nil l
  rw [createPseudonymizedText_singleton _ l v hv1 hv2]
  rw [show (String.mk (altPairs (segs.map fun s => (s.data, v.data)) last.data)).data
      = altPairs (segs.map fun s => (s.data, v.data)) last.data from rfl]
  rw [show replaceAllCI v.data (entityPlaceholder l).data
        (altPairs (segs.map fun s => (s.data, v.data)) last.data)
      = replaceAllBy ciEqB v.data (entityPlaceholder l).data
        (altPairs (segs.map fun s => (s.data, v.data)) last.data) from rfl]
  rw [replaceAllBy_altPairs ciEqB v.data (entityPlaceholder l).data hvd _ _ hfwd]
  rw [uniPairs_eq_altPairs]
  rw [restoreOriginalEntities_singleton _ l v hv1 hv2]
  simp only [List.map_map]
  rw [show ((fun p => (p.1, (entityPlaceholder l).data)) ∘ fun s : String => (s.data, v.data))
      = (fun s : String => (s.data, (entityPlaceholder l).data)) from rfl]
  rw [show replaceAllCI (entityPlaceholder l).data v.data
        (altPairs (segs.map fun s => (s.data, (entityPlaceholder l).data)) last.data)
      = replaceAllBy ciEqB (entityPlaceholder l).data v.data
        (altPairs (segs.map fun s => (s.data, (entityPlaceholder l).data)) last.data) from rfl]
  rw [replaceAllBy_altPairs ciEqB (entityPlaceholder l).data v.data hpd _ _ hbwd]
  rw [uniPairs_eq_altPairs]
  simp only [List.map_map]
  rw [show ((fun p => (p.1, v.data)) ∘ fun s : String => (s.data, (entityPlaceholder l).data))
      = (fun s : String => (s.data, v.data)) from rfl]
  rw [hstrip]

/-- Witness for `C1_roundtrip_singleton`: the round trip restores
`"Meine Name ist Korben Dallas."` with the mapping
`{first_name ↦ "Korben Dallas"}`. -/
theorem C1_roundtrip_singleton_witness :
    restoreOriginalEntities
        (createPseudonymizedText
          ⟨altPairs (["Meine Name ist "].map fun s => (s.data, "Korben Dallas".data)) ".".data⟩
          [("first_name", "Korben Dallas")])
        [("first_name", "Korben Dallas")]
      = ⟨altPairs (["Meine Name ist "].map fun s => (s.data, "Korben Dallas".data)) ".".data⟩ :=
  C1_roundtrip_singleton "first_name" "Korben Dallas" ["Meine Name ist "] "."
    (by decide) (by decide) (by decide) (by decide) (by decide)

/-! ## Claim C2 — forward pseudonymization -/

/-- Modelled from the claim's wording: the keyword table, searched in
the order the claim lists the keywords; the first keyword contained in
the label decides the placeholder, any other label yields the bracketed
uppercased label itself. -/
def claimPlaceholderTable : List (String × String) :=
  [("name", "[PERSON]"), ("number", "[NUMMER]"), ("id", "[NUMMER]"),
   ("email", "[EMAIL]"), ("address", "[ADRESSE]"), ("phone", "[TELEFON]")]

/-- Modelled from the claim's wording: keyword matching on the entity
label. -/
def claimPlaceholder (label : String) : String :=
  match claimPlaceholderTable.find? (fun kv => jsIncludes label kv.1) with
  | some kv => kv.2
  | none => "[" ++ jsToUpper label ++ "]"

/-- C2: (i) the placeholder computed by the code's keyword cascade
agrees with the claim's keyword table on every label, and (ii) for a
one-entry mapping `{l ↦ v}` with non-blank `v`, every case-insensitive
occurrence of `v` (an alternation text whose blocks are exactly the
case-insensitive matches of `v`) is replaced by that canonical
placeholder. -/
theorem C2_forward_pseudonymization :
    (∀ l : String, entityPlaceholder l = claimPlaceholder l) ∧
    (∀ (l v last : String) (ps : List (String × String)),
      v ≠ "" → jsTrim v ≠ "" →
      cleanPairsB ciEqB v.data (ps.map fun p => (p.1.data, p.2.data)) last.data = true →
      createPseudonymizedText
          ⟨altPairs (ps.map fun p => (p.1.data, p.2.data)) last.data⟩ [(l, v)]
        = ⟨altPairs (ps.map fun p => (p.1.data, (entityPlaceholder l).data)) last.data⟩) := by
  constructor
  · intro l
    unfold claimPlaceholder claimPlaceholderTable entityPlaceholder
    by_cases h1 : jsIncludes l "name" = true
    · simp [List.find?, h1]
    · by_cases h2 : jsIncludes l "number" = true
      · simp [List.find?, h1, h2]
      · by_cases h3 : jsIncludes l "id" = true
        · simp [List.find?, h1, h2, h3]
        · by_cases h4 : jsIncludes l "email" = true
          · simp [List.find?, h1, h2, h3, h4]
          · by_cases h5 : jsIncludes l "address" = true
            · simp [List.find?, h1, h2, h3, h4, h5]
            · by_cases h6 : jsIncludes l "phone" = true
              · simp [List.find?, h1, h2, h3, h4, h5, h6]
              · simp [List.find?, h1, h2, h3, h4, h5, h6]
  · intro l v last ps hv1 hv2 hclean
    have hvd : v.data ≠ [] := data_ne_nil_of_ne_empty hv1
    rw [createPseudonymizedText_singleton _ l v hv1 hv2]
    rw [show (String.mk (altPairs (ps.map fun p => (p.1.data, p.2.data)) last.data)).data
        = altPairs (ps.map fun p => (p.1.data, p.2.data)) last.data from rfl]
    rw [show replaceAllCI v.data (entityPlaceholder l).data
          (altPairs (ps.map fun p => (p.1.data, p.2.data)) last.data)
        = replaceAllBy ciEqB v.data (entityPlaceholder l).data
          (altPairs (ps.map fun p => (p.1.data, p.2.data)) last.data) from rfl]
    rw [replaceAllBy_altPairs ciEqB v.data (entityPlaceholder l).data hvd _ _ hclean]
    rw [uniPairs_eq_altPairs]
    simp only [List.map_map]
    rfl

/-- Witness for `C2_forward_pseudonymization`: the uppercase variant
`"KORBEN dallas"` of the mapped span `"Korben Dallas"` is replaced by
`[PERSON]`, and a label without keyword gets its bracketed uppercase
form. -/
theorem C2_forward_pseudonymization_witness :
    entityPlaceholder "city" = claimPlaceholder "city" ∧
    createPseudonymizedText
        ⟨altPairs ([("Meine Name ist ", "KORBEN dallas")].map
          fun p : String × String => (p.1.data, p.2.data)) ".".data⟩
        [("first_name", "Korben Dallas")]
      = ⟨altPairs ([("Meine Name ist ", "KORBEN dallas")].map
          fun p : String × String => (p.1.data, (entityPlaceholder "first_name").data)) ".".data⟩ :=
  ⟨C2_forward_pseudonymization.1 "city",
   C2_forward_pseudonymization.2 "first_name" "Korben Dallas" "."
     [("Meine Name ist ", "KORBEN dallas")] (by decide) (by decide) (by decide)⟩

/-! ## Claim C8 — behavior on an empty mapping -/

/-- C8, counterexample: the claim says that with an empty mapping the
forward direction applies the regex heuristics
(`simulatePseudonymization`); in fact `createPseudonymizedText` with an
empty mapping returns its input unchanged, which differs on
`"Max Mustermann"` (the heuristic would produce `"[PERSON]"`). -/
theorem C8_counterexample :
    createPseudonymizedText "Max Mustermann" [] ≠
      simulatePseudonymization "Max Mustermann" := by decide

/-- C8 (amended): with an empty (or absent) mapping the backward
direction does take the fixed simulation path
(`restoreOriginalEntities T ∅ = simulateVibeTexting T`, the fixed
unconditional replacement table), and the forward direction returns the
text unchanged; neither direction can throw, being total functions of
the text. -/
theorem C8_empty_mapping_behavior (T : String) :
    restoreOriginalEntities T [] = simulateVibeTexting T ∧
    createPseudonymizedText T [] = T := by
  constructor
  · simp [restoreOriginalEntities]
  · simp [createPseudonymizedText]

/-- Witness for `C8_empty_mapping_behavior` at a concrete text. -/
theorem C8_empty_mapping_behavior_witness :
    restoreOriginalEntities "a [PERSON] b" [] = simulateVibeTexting "a [PERSON] b" ∧
    createPseudonymizedText "a [PERSON] b" [] = "a [PERSON] b" :=
  C8_empty_mapping_behavior "a [PERSON] b"

/-! ## Claim C9 — the /hocr endpoint's substitution semantics -/

/-- C9: the /hocr endpoint builds `pseudonymizedText` with
`new RegExp(key, 'g')`: the mapping key is an unescaped regex (the
metacharacter `.` in the key `"a.c"` matches any non-newline character,
so `"abc"` is rewritten), matching is case-sensitive (`"Abc"` and
`"KORBEN"` are left alone; compare `createPseudonymizedText`, which is
case-insensitive), every match is replaced (`"Korben und Korben"`), and
the replacement is the raw full entity id `first_name_0`, not a
bracketed category placeholder. -/
theorem C9_hocr_unescaped_regex :
    hocrPseudonymizedText "abc" [("a.c", "first_name_0")] = "first_name_0" ∧
    hocrPseudonymizedText "a\nc" [("a.c", "first_name_0")] = "a\nc" ∧
    hocrPseudonymizedText "Abc" [("a.c", "first_name_0")] = "Abc" ∧
    hocrPseudonymizedText "KORBEN" [("Korben", "first_name_0")] = "KORBEN" ∧
    hocrPseudonymizedText "Korben und Korben" [("Korben", "first_name_0")] =
      "first_name_0 und first_name_0" ∧
    hocrPseudonymizedText "Korben" [("Korben", "first_name_0")] = "first_name_0" ∧
    createPseudonymizedText "Korben" [("first_name", "Korben")] = "[PERSON]" := by
  decide

/-! ## HOCR encoder (`convertTextToHocr`, src/worker/src/index.js lines 178-236)

The encoder is a string builder; it is embedded as explicit
concatenation of the source's template fragments over `List Char`.
JS number interpolation `${n}` is modelled by `natToStr` (all the
interpolated quantities are non-negative integers). -/

/-- The character for a decimal digit. -/
def digitChar : Nat → Char
  | 0 => '0' | 1 => '1' | 2 => '2' | 3 => '3' | 4 => '4'
  | 5 => '5' | 6 => '6' | 7 => '7' | 8 => '8' | _ => '9'

/-- Decimal digits of `n`, least significant first. -/
def natDigitsRev : Nat → Nat → List Char
  | 0, _ => []
  | fuel + 1, n =>
    if n = 0 then [] else digitChar (n % 10) :: natDigitsRev fuel (n / 10)

/-- Decimal rendering of a natural number (model of JS `${n}`). -/
def natToStr (n : Nat) : List Char :=
  if n = 0 then ['0'] else (natDigitsRev n n).reverse

/-- Extend the first token of a split result with a leading character. -/
def consTok (c : Char) : List (List Char) → List (List Char)
  | t :: ts => (c :: t) :: ts
  | [] => [[c]]

/-- Whether a list starts with a `\s` character. -/
def headIsWs : List Char → Bool
  | [] => false
  | d :: _ => isJsWs d

/-- Model of JS `String.split(/\s+/)`: maximal whitespace runs
separate tokens; leading and trailing runs contribute empty tokens
(a token boundary is placed at the last character of each run). -/
def jsSplitWs : List Char → List (List Char)
  | [] => [[]]
  | c :: rest =>
    if isJsWs c then
      if headIsWs rest then jsSplitWs rest else [] :: jsSplitWs rest
    else consTok c (jsSplitWs rest)

/-- Model of JS `String.split('\n')`. -/
def splitOnNl : List Char → List (List Char)
  | [] => [[]]
  | c :: rest =>
    if c = '\n' then [] :: splitOnNl rest
    else consTok c (splitOnNl rest)

/-- List-level model of JS `String.trim`. -/
def jsTrimL (cs : List Char) : List Char :=
  ((cs.dropWhile isJsWs).reverse.dropWhile isJsWs).reverse

/-- Length of a match of the paragraph separator `/\n\s*\n/` at the
head of `cs`, if any: a newline, then (greedily, as the backtracking JS
engine resolves `\s*` followed by `\n`) up to the last newline inside
the following whitespace run. -/
def paraSepLen (cs : List Char) : Option Nat :=
  match cs with
  | [] => none
  | c :: rest =>
    if c = '\n' then
      match ((List.range (rest.takeWhile isJsWs).length).filter
          (fun j => (rest.takeWhile isJsWs).getD j ' ' = '\n')).getLast? with
      | some j => some (1 + j + 1)
      | none => none
    else none

/-- Model of JS `String.split(/\n\s*\n/)` (the encoder's paragraph
split): left-to-right non-overlapping matches of the separator. -/
def splitParasAux : Nat → List Char → List Char → List (List Char)
  | _, cur, [] => [cur.reverse]
  | 0, cur, rest => [cur.reverse ++ rest]
  | fuel + 1, cur, c :: rest =>
    match paraSepLen (c :: rest) with
    | some n => cur.reverse :: splitParasAux fuel [] (rest.drop (n - 1))
    | none => splitParasAux fuel (c :: cur) rest

def splitParas (cs : List Char) : List (List Char) := splitParasAux cs.length [] cs

/-- The punctuation strip `word.replace(/[^\w\s]/g, '')` of the
encoder: keep only `\w` and `\s` characters. -/
def cleanWordOf (w : List Char) : List Char :=
  w.filter (fun c => isJsWordChar c || isJsWs c)

/-- The fixed document head emitted before any paragraph (template
literal of src/worker/src/index.js lines 182-192). -/
def hocrHeader : String :=
  "<?xml version=\"1.0\" encoding=\"UTF-8\"?>\n<!DOCTYPE html PUBLIC \"-//W3C//DTD XHTML 1.0 Transitional//EN\" \"http://www.w3.org/TR/xhtml1/DTD/xhtml1-transitional.dtd\">\n<html xmlns=\"http://www.w3.org/1999/xhtml\">\n\t<head>\n\t\t<title></title>\n\t\t<meta http-equiv=\"Content-Type\" content=\"text/html;charset=utf-8\" />\n\t\t<meta name=\"ocr-system\" content=\"CIB ocr:3.1.1.0;CIB deepER:2.8.0\" />\n\t\t<meta name=\"ocr-capabilities\" content=\"\" />\n\t</head>\n\t<body>\n  <div class=\"ocr_page\" title=\"image input.png; bbox 0 0 2456 3516; ppageno 1; x_useddeskewangle -0.5625\" id=\"page_1\">\n"

/-- The fixed document tail (line 233). -/
def hocrFooter : String := "\t</div>\n</body>\n</html>\n"

/-- One emitted word region (line 216). -/
def wordFrag (wordX lineY width wordId : Nat) (clean : List Char) : List Char :=
  "\t\t\t<span class=\"ocrx_word\" title=\"bbox ".data ++
    (natToStr wordX ++ (" ".data ++ (natToStr lineY ++ (" ".data ++
      (natToStr (wordX + width) ++ (" ".data ++ (natToStr (lineY + 50) ++
        ("\" id=\"word_".data ++ (natToStr wordId ++ ("\">".data ++
          (clean ++ "</span>\n".data)))))))))))

/-- One emitted line opening tag (line 205). -/
def lineOpenFrag (lineY lineId : Nat) : List Char :=
  "\t\t<span class=\"ocr_line\" title=\"bbox 0 ".data ++
    (natToStr lineY ++ (" 1000 ".data ++ (natToStr (lineY + 50) ++
      ("\" id=\"line_".data ++ (natToStr lineId ++ "\">\n".data)))))

/-- The emitted line closing tag (line 223). -/
def lineCloseFrag : List Char := "\t\t</span>\n".data

/-- The word loop (lines 210-221): skips empty tokens and tokens whose
punctuation strip is empty; emits one word region per surviving token,
advancing `wordX` and `wordId`.  Returns the emitted text and the final
`wordId`. -/
def emitWords (lineY : Nat) : List (List Char) → Nat → Nat → (List Char × Nat)
  | [], _, wordId => ([], wordId)
  | w :: ws, wordX, wordId =>
    if w ≠ [] then
      let clean := cleanWordOf w
      if clean ≠ [] then
        let width := clean.length * 10
        let r := emitWords lineY ws (wordX + width + 10) (wordId + 1)
        (wordFrag wordX lineY width wordId clean ++ r.1, r.2)
      else emitWords lineY ws wordX wordId
    else emitWords lineY ws wordX wordId

/-- The line loop (lines 202-226): skips blank lines, emits an
`ocr_line` region per non-blank line, advancing `lineY` by 30.  The
line id uses the 0-based index within the paragraph (blank lines
included), plus one.  Returns (text, lineY, wordId). -/
def emitLines : List (List Char) → Nat → Nat → Nat → (List Char × Nat × Nat)
  | [], lineY, wordId, _ => ([], lineY, wordId)
  | ln :: lns, lineY, wordId, lIdx =>
    if jsTrimL ln ≠ [] then
      let words := jsSplitWs (jsTrimL ln)
      let rw := emitWords lineY words 100 wordId
      let rl := emitLines lns (lineY + 30) rw.2 (lIdx + 1)
      (lineOpenFrag lineY (lIdx + 1) ++ (rw.1 ++ (lineCloseFrag ++ rl.1)), rl.2.1, rl.2.2)
    else emitLines lns lineY wordId (lIdx + 1)

/-- The paragraph loop (lines 197-231): skips blank paragraphs, and
adds 20 to `lineY` after each non-blank one. -/
def emitParas : List (List Char) → Nat → Nat → (List Char × Nat × Nat)
  | [], lineY, wordId => ([], lineY, wordId)
  | p :: ps, lineY, wordId =>
    if jsTrimL p ≠ [] then
      let rl := emitLines (splitOnNl p) lineY wordId 0
      let rp := emitParas ps (rl.2.1 + 20) rl.2.2
      (rl.1 ++ rp.1, rp.2.1, rp.2.2)
    else emitParas ps lineY wordId

/-- `convertTextToHocr` (src/worker/src/index.js lines 178-236). -/
def convertTextToHocr (text : String) : String :=
  ⟨hocrHeader.data ++ ((emitParas (splitParas text.data) 100 1).1 ++ hocrFooter.data)⟩

/-- `hasXEntityAnnotationInHocr` (parse_hocr_directly.js lines 273-278),
applied to the file's content: a plain substring check for the marker. -/
def hasXEntityAnnotationInHocr (content : String) : Bool :=
  jsIncludes content "x_entity"

/-- Occurrence count of a (non-empty) literal pattern: the number of
start positions at which the pattern occurs. -/
def countOcc (pat : List Char) : List Char → Nat
  | [] => 0
  | c :: rest =>
    (if prefEqBy (fun a b => a = b) pat (c :: rest) then 1 else 0) + countOcc pat rest

/-- The probe identifying exactly the `ocrx_word` opening tags in an
encoder document: the substring `="ocrx` occurs once in
`class="ocrx_word"` and nowhere else (word text cannot contain `=` or
`"`, every interpolated number is digits only, and all other class or
attribute values differ). -/
def wordTagProbe : List Char := "=\"ocrx".data

/-- The number of `ocrx_word` regions of a document. -/
def wordRegionCount (doc : String) : Nat := countOcc wordTagProbe doc.data

/-- The claim-side token count: whitespace-separated tokens of the
whole text that survive punctuation stripping. -/
def tcount (ts : List (List Char)) : Nat :=
  (ts.filter (fun w => cleanWordOf w ≠ [])).length

def tokCount (cs : List Char) : Nat := tcount (jsSplitWs cs)

/-! ## Counting occurrences of the word-tag probe -/

theorem digitChar_isDigit (d : Nat) : isDigitB (digitChar d) = true := by
  unfold digitChar
  split <;> decide

theorem natDigitsRev_digits :
    ∀ (fuel n : Nat), ∀ c ∈ natDigitsRev fuel n, isDigitB c = true := by
  intro fuel
  induction fuel with
  | zero => intro n c hc; simp [natDigitsRev] at hc
  | succ f ih =>
    intro n c hc
    unfold natDigitsRev at hc
    by_cases hn : n = 0
    · simp [hn] at hc
    · rw [if_neg hn] at hc
      rcases List.mem_cons.mp hc with h | h
      · subst h; exact digitChar_isDigit _
      · exact ih (n / 10) c h

theorem natToStr_digits (n : Nat) : ∀ c ∈ natToStr n, isDigitB c = true := by
  intro c hc
  unfold natToStr at hc
  by_cases hn : n = 0
  · rw [if_pos hn] at hc
    simp at hc
    subst hc
    decide
  · rw [if_neg hn, List.mem_reverse] at hc
    exact natDigitsRev_digits n n c hc

theorem countOcc_cons (pat : List Char) (c : Char) (rest : List Char) :
    countOcc pat (c :: rest) =
      (if prefEqBy (fun a b => a = b) pat (c :: rest) then 1 else 0) + countOcc pat rest := rfl

/-- A pattern match against `xs ++ b` is a match against `xs` alone
when the last character of `xs` does not occur in the pattern. -/
theorem prefEq_append_stop (z : Char) :
    ∀ (pat xs b : List Char), z ∉ pat → xs.getLast? = some z →
      prefEqBy (fun a b => a = b) pat (xs ++ b) =
        prefEqBy (fun a b => a = b) pat xs
  | [], _, _, _, _ => rfl
  | _ :: _, [], _, _, h => by simp at h
  | p :: ps, [x], b, hz, h => by
    have hx : x = z := by simpa using h
    have hp : (decide (p = x)) = false := by
      simp only [decide_eq_false_iff_not]
      intro e
      apply hz
      rw [← hx, ← e]
      exact List.mem_cons_self p ps
    show prefEqBy (fun a b => a = b) (p :: ps) (x :: b) = _
    rw [show prefEqBy (fun a b => a = b) (p :: ps) (x :: b)
        = (decide (p = x) && prefEqBy (fun a b => a = b) ps b) from rfl]
    rw [show prefEqBy (fun a b => a = b) (p :: ps) [x]
        = (decide (p = x) && prefEqBy (fun a b => a = b) ps []) from rfl]
    rw [hp]
    simp
  | p :: ps, x :: y :: xs, b, hz, h => by
    have h' : (y :: xs).getLast? = some z := by
      rwa [List.getLast?_cons_cons] at h
    show (decide (p = x) && prefEqBy (fun a b => a = b) ps ((y :: xs) ++ b))
        = (decide (p = x) && prefEqBy (fun a b => a = b) ps (y :: xs))
    rw [prefEq_append_stop z ps (y :: xs) b
      (fun hm => hz (List.mem_cons_of_mem p hm)) h']

/-- Occurrence counting distributes over an append whose left part ends
with a character foreign to the pattern. -/
theorem countOcc_append_stop (pat : List Char) (z : Char) (hz : z ∉ pat) :
    ∀ (a b : List Char), a.getLast? = some z →
      countOcc pat (a ++ b) = countOcc pat a + countOcc pat b
  | [], _, h => by simp at h
  | [x], b, h => by
    have e3 : prefEqBy (fun a b => a = b) pat (x :: b) =
        prefEqBy (fun a b => a = b) pat [x] := by
      have := prefEq_append_stop z pat [x] b hz h
      simpa using this
    show countOcc pat (x :: b) = _
    rw [countOcc_cons pat x b, e3]
    rw [show countOcc pat [x]
        = (if prefEqBy (fun a b => a = b) pat [x] then 1 else 0) + 0 from rfl]
    omega
  | x :: y :: xs, b, h => by
    have h' : (y :: xs).getLast? = some z := by
      rwa [List.getLast?_cons_cons] at h
    show countOcc pat (x :: ((y :: xs) ++ b)) = _
    rw [countOcc_cons pat x ((y :: xs) ++ b)]
    rw [countOcc_append_stop pat z hz (y :: xs) b h']
    have e3 : prefEqBy (fun a b => a = b) pat (x :: ((y :: xs) ++ b)) =
        prefEqBy (fun a b => a = b) pat (x :: y :: xs) := by
      have := prefEq_append_stop z pat (x :: y :: xs) b hz h
      simpa using this
    rw [e3, countOcc_cons pat x (y :: xs)]
    omega

/-- No occurrence can start inside a block that lacks the pattern's
first character. -/
theorem countOcc_noStart (p0 : Char) (ps : List Char) :
    ∀ (a b : List Char), (∀ c ∈ a, c ≠ p0) →
      countOcc (p0 :: ps) (a ++ b) = countOcc (p0 :: ps) b
  | [], _, _ => by simp
  | c :: a', b, h => by
    have hc : c ≠ p0 := h c (List.mem_cons_self c a')
    show countOcc (p0 :: ps) (c :: (a' ++ b)) = _
    rw [countOcc_cons (p0 :: ps) c (a' ++ b)]
    rw [show prefEqBy (fun a b => a = b) (p0 :: ps) (c :: (a' ++ b))
        = (decide (p0 = c) && prefEqBy (fun a b => a = b) ps (a' ++ b)) from rfl]
    rw [show (decide (p0 = c)) = false from by
      simp only [decide_eq_false_iff_not]; exact fun e => hc e.symm]
    rw [countOcc_noStart p0 ps a' b (fun d hd => h d (List.mem_cons_of_mem c hd))]
    simp

theorem countOcc_probe_skip (a b : List Char) (h : ∀ c ∈ a, c ≠ '=') :
    countOcc wordTagProbe (a ++ b) = countOcc wordTagProbe b :=
  countOcc_noStart '=' "\"ocrx".data a b h

theorem digits_ne_eqSign {c : Char} (h : isDigitB c = true) : c ≠ '=' := by
  intro he
  subst he
  simp [isDigitB] at h

theorem cleanChar_ne_eqSign {c : Char} (h : (isJsWordChar c || isJsWs c) = true) : c ≠ '=' := by
  intro he
  subst he
  simp [isJsWordChar, isAsciiAlpha, isAsciiUpper, isAsciiLower, isDigitB, isJsWs] at h

/-! ## Token counting under splitting, trimming and line structure -/

theorem tcount_cons (w : List Char) (ws : List (List Char)) :
    tcount (w :: ws) = (if cleanWordOf w ≠ [] then 1 else 0) + tcount ws := by
  by_cases h : cleanWordOf w ≠ []
  · simp [tcount, h, Nat.add_comm]
  · simp [tcount, h]

theorem jsSplitWs_cons (c : Char) (rest : List Char) :
    jsSplitWs (c :: rest) =
      if isJsWs c then (if headIsWs rest then jsSplitWs rest else [] :: jsSplitWs rest)
      else consTok c (jsSplitWs rest) := rfl

theorem consTok_ne_nil (c : Char) : ∀ l, consTok c l ≠ []
  | [] => by simp [consTok]
  | _ :: _ => by simp [consTok]

theorem jsSplitWs_ne_nil : ∀ cs : List Char, jsSplitWs cs ≠ []
  | [] => by simp [jsSplitWs]
  | c :: rest => by
    rw [jsSplitWs_cons]
    by_cases hc : isJsWs c
    · rw [if_pos hc]
      by_cases hh : headIsWs rest
      · rw [if_pos hh]
        exact jsSplitWs_ne_nil rest
      · rw [if_neg hh]
        simp
    · rw [if_neg hc]
      exact consTok_ne_nil c _

theorem jsSplitWs_headD_ws :
    ∀ (cs : List Char), headIsWs cs = true → (jsSplitWs cs).headD [] = []
  | [], h => by simp [headIsWs] at h
  | c :: rest, h => by
    have hc : isJsWs c = true := h
    rw [jsSplitWs_cons, if_pos hc]
    by_cases hh : headIsWs rest
    · rw [if_pos hh]
      exact jsSplitWs_headD_ws rest hh
    · rw [if_neg hh]
      rfl

theorem tokCount_ws_cons (c : Char) (rest : List Char) (h : isJsWs c = true) :
    tokCount (c :: rest) = tokCount rest := by
  unfold tokCount
  rw [jsSplitWs_cons, if_pos h]
  by_cases hh : headIsWs rest
  · rw [if_pos hh]
  · rw [if_neg hh, tcount_cons]
    simp [cleanWordOf]

/-- Splitting around an inserted newline: the first token is unchanged
and the token counts add. -/
theorem jsSplitWs_append_nl :
    ∀ (a b : List Char),
      (jsSplitWs (a ++ '\n' :: b)).headD [] = (jsSplitWs a).headD [] ∧
      tokCount (a ++ '\n' :: b) = tokCount a + tokCount b
  | [], b => by
    constructor
    · simp only [List.nil_append]
      rw [jsSplitWs_headD_ws ('\n' :: b) (by rfl)]
      simp [jsSplitWs]
    · simp only [List.nil_append]
      rw [tokCount_ws_cons '\n' b (by decide)]
      simp [tokCount, tcount, jsSplitWs, cleanWordOf]
  | c :: a', b => by
    by_cases hc : isJsWs c
    · constructor
      · show (jsSplitWs (c :: (a' ++ '\n' :: b))).headD [] = _
        rw [jsSplitWs_headD_ws (c :: (a' ++ '\n' :: b)) hc,
          jsSplitWs_headD_ws (c :: a') hc]
      · show tokCount (c :: (a' ++ '\n' :: b)) = _
        rw [tokCount_ws_cons c _ hc, tokCount_ws_cons c a' hc]
        exact (jsSplitWs_append_nl a' b).2
    · obtain ⟨t, ts, hts⟩ : ∃ t ts, jsSplitWs (a' ++ '\n' :: b) = t :: ts := by
        cases h : jsSplitWs (a' ++ '\n' :: b) with
        | nil => exact absurd h (jsSplitWs_ne_nil _)
        | cons t ts => exact ⟨t, ts, rfl⟩
      obtain ⟨t', ts', hts'⟩ : ∃ t ts, jsSplitWs a' = t :: ts := by
        cases h : jsSplitWs a' with
        | nil => exact absurd h (jsSplitWs_ne_nil _)
        | cons t ts => exact ⟨t, ts, rfl⟩
      have hx : jsSplitWs (c :: (a' ++ '\n' :: b)) = (c :: t) :: ts := by
        rw [jsSplitWs_cons, if_neg hc, hts]
        rfl
      have hx' : jsSplitWs (c :: a') = (c :: t') :: ts' := by
        rw [jsSplitWs_cons, if_neg hc, hts']
        rfl
      have IH := jsSplitWs_append_nl a' b
      have hteq : t = t' := by
        have h1 := IH.1
        rw [hts, hts'] at h1
        simpa using h1
      subst hteq
      constructor
      · show (jsSplitWs (c :: (a' ++ '\n' :: b))).headD [] = _
        rw [hx, hx']
        rfl
      · show tokCount (c :: (a' ++ '\n' :: b)) = tokCount (c :: a') + tokCount b
        have hcnt := IH.2
        unfold tokCount at hcnt ⊢
        rw [hts, hts'] at hcnt
        rw [hx, hx']
        rw [tcount_cons, tcount_cons] at hcnt ⊢
        omega

/-- Appending one trailing whitespace character: the first token is
unchanged and the token count is unchanged. -/
theorem jsSplitWs_append_ws :
    ∀ (cs : List Char) (w : Char), isJsWs w = true →
      (jsSplitWs (cs ++ [w])).headD [] = (jsSplitWs cs).headD [] ∧
      tokCount (cs ++ [w]) = tokCount cs
  | [], w, hw => by
    constructor
    · simp only [List.nil_append]
      rw [jsSplitWs_headD_ws (w :: []) hw]
      simp [jsSplitWs]
    · simp only [List.nil_append]
      rw [tokCount_ws_cons w [] hw]
  | c :: cs', w, hw => by
    by_cases hc : isJsWs c
    · constructor
      · show (jsSplitWs (c :: (cs' ++ [w]))).headD [] = _
        rw [jsSplitWs_headD_ws (c :: (cs' ++ [w])) hc, jsSplitWs_headD_ws (c :: cs') hc]
      · show tokCount (c :: (cs' ++ [w])) = _
        rw [tokCount_ws_cons c _ hc, tokCount_ws_cons c cs' hc]
        exact (jsSplitWs_append_ws cs' w hw).2
    · obtain ⟨t, ts, hts⟩ : ∃ t ts, jsSplitWs (cs' ++ [w]) = t :: ts := by
        cases h : jsSplitWs (cs' ++ [w]) with
        | nil => exact absurd h (jsSplitWs_ne_nil _)
        | cons t ts => exact ⟨t, ts, rfl⟩
      obtain ⟨t', ts', hts'⟩ : ∃ t ts, jsSplitWs cs' = t :: ts := by
        cases h : jsSplitWs cs' with
        | nil => exact absurd h (jsSplitWs_ne_nil _)
        | cons t ts => exact ⟨t, ts, rfl⟩
      have hx : jsSplitWs (c :: (cs' ++ [w])) = (c :: t) :: ts := by
        rw [jsSplitWs_cons, if_neg hc, hts]
        rfl
      have hx' : jsSplitWs (c :: cs') = (c :: t') :: ts' := by
        rw [jsSplitWs_cons, if_neg hc, hts']
        rfl
      have IH := jsSplitWs_append_ws cs' w hw
      have hteq : t = t' := by
        have h1 := IH.1
        rw [hts, hts'] at h1
        simpa using h1
      subst hteq
      constructor
      · show (jsSplitWs (c :: (cs' ++ [w]))).headD [] = _
        rw [hx, hx']
        rfl
      · show tokCount (c :: (cs' ++ [w])) = tokCount (c :: cs')
        have hcnt := IH.2
        unfold tokCount at hcnt ⊢
        rw [hts, hts'] at hcnt
        rw [hx, hx']
        rw [tcount_cons, tcount_cons] at hcnt ⊢
        omega

/-- Appending an all-whitespace suffix preserves the token count. -/
theorem tokCount_append_wsRun :
    ∀ (sfx : List Char), (∀ c ∈ sfx, isJsWs c = true) →
      ∀ (cs : List Char), tokCount (cs ++ sfx) = tokCount cs
  | [], _, cs => by simp
  | w :: sfx', h, cs => by
    have hw : isJsWs w = true := h w (List.mem_cons_self w sfx')
    rw [show cs ++ (w :: sfx') = (cs ++ [w]) ++ sfx' from by simp]
    rw [tokCount_append_wsRun sfx' (fun c hc => h c (List.mem_cons_of_mem w hc)) (cs ++ [w])]
    exact (jsSplitWs_append_ws cs w hw).2

/-- Dropping leading whitespace preserves the token count. -/
theorem tokCount_dropWhile_ws :
    ∀ cs : List Char, tokCount (cs.dropWhile isJsWs) = tokCount cs
  | [] => rfl
  | c :: rest => by
    by_cases hc : isJsWs c
    · rw [List.dropWhile_cons_of_pos hc, tokCount_dropWhile_ws rest, tokCount_ws_cons c rest hc]
    · rw [List.dropWhile_cons_of_neg hc]

theorem mem_takeWhile_pred {p : Char → Bool} :
    ∀ {l : List Char} {c : Char}, c ∈ l.takeWhile p → p c = true := by
  intro l
  induction l with
  | nil => intro c hc; simp at hc
  | cons x xs ih =>
    intro c hc
    by_cases hx : p x
    · rw [List.takeWhile_cons_of_pos hx] at hc
      rcases List.mem_cons.mp hc with h | h
      · subst h; exact hx
      · exact ih h
    · rw [List.takeWhile_cons_of_neg hx] at hc
      simp at hc

/-- JS `trim` preserves the token count. -/
theorem tokCount_jsTrimL (cs : List Char) : tokCount (jsTrimL cs) = tokCount cs := by
  unfold jsTrimL
  set d1 := cs.dropWhile isJsWs with hd1
  have hsplit : (d1.reverse.takeWhile isJsWs) ++ (d1.reverse.dropWhile isJsWs) = d1.reverse :=
    List.takeWhile_append_dropWhile isJsWs d1.reverse
  have hd : d1 = (d1.reverse.dropWhile isJsWs).reverse ++ (d1.reverse.takeWhile isJsWs).reverse := by
    calc d1 = d1.reverse.reverse := (List.reverse_reverse d1).symm
    _ = ((d1.reverse.takeWhile isJsWs) ++ (d1.reverse.dropWhile isJsWs)).reverse := by rw [hsplit]
    _ = (d1.reverse.dropWhile isJsWs).reverse ++ (d1.reverse.takeWhile isJsWs).reverse := by
        rw [List.reverse_append]
  have h1 : tokCount d1 = tokCount ((d1.reverse.dropWhile isJsWs).reverse) := by
    conv_lhs => rw [hd]
    exact tokCount_append_wsRun _
      (fun c hc => mem_takeWhile_pred (List.mem_reverse.mp hc)) _
  rw [← h1, hd1]
  exact tokCount_dropWhile_ws cs

/-! ## Line structure and the paragraph split -/

theorem splitOnNl_cons (c : Char) (rest : List Char) :
    splitOnNl (c :: rest) =
      if c = '\n' then [] :: splitOnNl rest else consTok c (splitOnNl rest) := rfl

theorem splitOnNl_ne_nil : ∀ cs : List Char, splitOnNl cs ≠ []
  | [] => by simp [splitOnNl]
  | c :: rest => by
    rw [splitOnNl_cons]
    by_cases hc : c = '\n'
    · rw [if_pos hc]
      simp
    · rw [if_neg hc]
      exact consTok_ne_nil c _

/-- `split('\n')` distributes over an inserted newline. -/
theorem splitOnNl_append_nl : ∀ (x y : List Char),
    splitOnNl (x ++ '\n' :: y) = splitOnNl x ++ splitOnNl y
  | [], y => by
    simp only [List.nil_append]
    rw [splitOnNl_cons, if_pos rfl]
    rfl
  | c :: x', y => by
    by_cases hc : c = '\n'
    · show splitOnNl (c :: (x' ++ '\n' :: y)) = _
      rw [splitOnNl_cons, if_pos hc, splitOnNl_append_nl x' y, splitOnNl_cons, if_pos hc]
      rfl
    · obtain ⟨t, ts, hts⟩ : ∃ t ts, splitOnNl x' = t :: ts := by
        cases h : splitOnNl x' with
        | nil => exact absurd h (splitOnNl_ne_nil _)
        | cons t ts => exact ⟨t, ts, rfl⟩
      show splitOnNl (c :: (x' ++ '\n' :: y)) = _
      rw [splitOnNl_cons, if_neg hc, splitOnNl_append_nl x' y, splitOnNl_cons, if_neg hc, hts]
      rfl

theorem splitOnNl_no_nl : ∀ cs : List Char, '\n' ∉ cs → splitOnNl cs = [cs]
  | [], _ => rfl
  | c :: rest, h => by
    rw [splitOnNl_cons,
      if_neg (fun e => h (by rw [← e]; exact List.mem_cons_self c rest)),
      splitOnNl_no_nl rest (fun hm => h (List.mem_cons_of_mem c hm))]
    rfl

theorem mem_split_first {z : Char} :
    ∀ (l : List Char), z ∈ l → ∃ pre post, l = pre ++ z :: post ∧ ∀ c ∈ pre, c ≠ z
  | [], h => by simp at h
  | c :: rest, h => by
    by_cases hc : c = z
    · exact ⟨[], rest, by simp [hc], by simp⟩
    · have hz : z ∈ rest := by
        rcases List.mem_cons.mp h with h' | h'
        · exact absurd h'.symm hc
        · exact h'
      obtain ⟨pre, post, hdec, hpre⟩ := mem_split_first rest hz
      refine ⟨c :: pre, post, by rw [List.cons_append, ← hdec], ?_⟩
      intro d hd
      rcases List.mem_cons.mp hd with h' | h'
      · subst h'
        exact hc
      · exact hpre d h'

/-- The token count of a text is the sum over its `split('\n')` lines. -/
theorem tokCount_splitOnNl :
    ∀ (n : Nat) (cs : List Char), cs.length ≤ n →
      ((splitOnNl cs).map tokCount).sum = tokCount cs := by
  intro n
  induction n with
  | zero =>
    intro cs h
    have : cs = [] := List.length_eq_zero.mp (Nat.le_zero.mp h)
    subst this
    simp [splitOnNl, tokCount, tcount, jsSplitWs, cleanWordOf]
  | succ n ih =>
    intro cs h
    by_cases hnl : '\n' ∈ cs
    · obtain ⟨pre, post, hdec, _⟩ := mem_split_first cs hnl
      subst hdec
      have hlen : pre.length + (1 + post.length) = (pre ++ '\n' :: post).length := by
        simp
        omega
      rw [splitOnNl_append_nl pre post, List.map_append, List.sum_append]
      rw [ih pre (by omega), ih post (by omega)]
      exact ((jsSplitWs_append_nl pre post).2).symm
    · rw [splitOnNl_no_nl cs hnl]
      simp

theorem jsTrimL_of_all_ws {l : List Char} (h : ∀ c ∈ l, isJsWs c = true) : jsTrimL l = [] := by
  unfold jsTrimL
  rw [List.dropWhile_eq_nil_iff.mpr h]
  rfl

theorem tokCount_of_trim_nil {cs : List Char} (h : jsTrimL cs = []) : tokCount cs = 0 := by
  rw [← tokCount_jsTrimL cs, h]
  rfl

theorem mem_of_getD {l : List Char} {j : Nat} {z d : Char} (hj : j < l.length)
    (h : l.getD j d = z) : z ∈ l := by
  rw [List.getD_eq_getElem?_getD, List.getElem?_eq_getElem hj] at h
  simp only [Option.getD_some] at h
  rw [← h]
  exact List.getElem_mem hj

theorem paraSepLen_cons (c : Char) (rest : List Char) :
    paraSepLen (c :: rest) =
      if c = '\n' then
        (match ((List.range (rest.takeWhile isJsWs).length).filter
            (fun j => (rest.takeWhile isJsWs).getD j ' ' = '\n')).getLast? with
         | some j => some (1 + j + 1)
         | none => none)
      else none := rfl

/-- In a text whose every line is non-blank, the paragraph separator
`/\n\s*\n/` matches at no position: a match would exhibit an all-
whitespace line. -/
theorem paraSepLen_none_of_noblank (cs : List Char)
    (hnb : ∀ l ∈ splitOnNl cs, jsTrimL l ≠ []) :
    ∀ i, paraSepLen (List.drop i cs) = none := by
  intro i
  cases hd : List.drop i cs with
  | nil => rfl
  | cons c rest =>
    by_cases hc : c = '\n'
    · subst hc
      rw [paraSepLen_cons, if_pos rfl]
      cases hlast : ((List.range (rest.takeWhile isJsWs).length).filter
          (fun j => (rest.takeWhile isJsWs).getD j ' ' = '\n')).getLast? with
      | none => rfl
      | some j =>
        exfalso
        have hjmem := List.mem_of_getLast?_eq_some hlast
        have hjf := List.mem_filter.mp hjmem
        have hjr : j < (rest.takeWhile isJsWs).length := List.mem_range.mp hjf.1
        have hjd : (rest.takeWhile isJsWs).getD j ' ' = '\n' := by
          simpa using hjf.2
        have hnlrun : '\n' ∈ rest.takeWhile isJsWs := mem_of_getD hjr hjd
        obtain ⟨pre, post, hruns, hprenl⟩ := mem_split_first _ hnlrun
        have hpre_ws : ∀ c ∈ pre, isJsWs c = true := by
          intro c hcm
          exact mem_takeWhile_pred (by rw [hruns]; exact List.mem_append_left _ hcm)
        have hrest : rest = pre ++ '\n' ::
            (post ++ rest.dropWhile isJsWs) := by
          conv_lhs => rw [← List.takeWhile_append_dropWhile isJsWs rest]
          rw [hruns]
          simp
        have hcs : cs = List.take i cs ++ '\n' :: rest := by
          conv_lhs => rw [← List.take_append_drop i cs]
          rw [hd]
        have hmem : pre ∈ splitOnNl cs := by
          rw [hcs, splitOnNl_append_nl, hrest, splitOnNl_append_nl,
            splitOnNl_no_nl pre (fun hm => hprenl '\n' hm rfl)]
          exact List.mem_append_right _ (List.mem_append_left _ (List.mem_cons_self _ _))
        exact hnb pre hmem (jsTrimL_of_all_ws hpre_ws)
    · rw [paraSepLen_cons, if_neg hc]

theorem splitParasAux_cons (fuel : Nat) (cur : List Char) (c : Char) (rest : List Char) :
    splitParasAux (fuel + 1) cur (c :: rest) =
      (match paraSepLen (c :: rest) with
       | some n => cur.reverse :: splitParasAux fuel [] (rest.drop (n - 1))
       | none => splitParasAux fuel (c :: cur) rest) := rfl

theorem splitParasAux_nosep :
    ∀ (fuel : Nat) (cs cur : List Char), cs.length ≤ fuel →
      (∀ i, paraSepLen (List.drop i cs) = none) →
      splitParasAux fuel cur cs = [cur.reverse ++ cs] := by
  intro fuel
  induction fuel with
  | zero =>
    intro cs cur h _
    have : cs = [] := List.length_eq_zero.mp (Nat.le_zero.mp h)
    subst this
    simp [splitParasAux]
  | succ f ih =>
    intro cs cur h hsep
    cases cs with
    | nil => simp [splitParasAux]
    | cons c rest =>
      rw [splitParasAux_cons]
      have h0 : paraSepLen (c :: rest) = none := by
        have := hsep 0
        simpa using this
      rw [h0]
      rw [ih rest (c :: cur) (by simp only [List.length_cons] at h; omega) ?_]
      · simp
      · intro i
        have := hsep (i + 1)
        rwa [List.drop_succ_cons] at this

/-- With no blank line, the paragraph split returns the whole text. -/
theorem splitParas_noblank (cs : List Char)
    (hnb : ∀ l ∈ splitOnNl cs, jsTrimL l ≠ []) :
    splitParas cs = [cs] := by
  unfold splitParas
  rw [splitParasAux_nosep cs.length cs [] (Nat.le_refl _)
    (paraSepLen_none_of_noblank cs hnb)]
  simp

/-! ## Word-region counting over the emitted document -/

theorem countOcc_wordFrag_append (wordX lineY width wordId : Nat) (clean : List Char)
    (hclean : ∀ c ∈ clean, (isJsWordChar c || isJsWs c) = true) (X : List Char) :
    countOcc wordTagProbe (wordFrag wordX lineY width wordId clean ++ X) =
      1 + countOcc wordTagProbe X := by
  unfold wordFrag
  simp only [List.append_assoc]
  rw [countOcc_append_stop wordTagProbe ' ' (by decide)
    "\t\t\t<span class=\"ocrx_word\" title=\"bbox ".data _ (by decide)]
  rw [show countOcc wordTagProbe "\t\t\t<span class=\"ocrx_word\" title=\"bbox ".data = 1
    from by decide]
  rw [countOcc_probe_skip (natToStr wordX) _
    (fun c hc => digits_ne_eqSign (natToStr_digits wordX c hc))]
  rw [countOcc_probe_skip " ".data _ (by decide)]
  rw [countOcc_probe_skip (natToStr lineY) _
    (fun c hc => digits_ne_eqSign (natToStr_digits lineY c hc))]
  rw [countOcc_probe_skip " ".data _ (by decide)]
  rw [countOcc_probe_skip (natToStr (wordX + width)) _
    (fun c hc => digits_ne_eqSign (natToStr_digits _ c hc))]
  rw [countOcc_probe_skip " ".data _ (by decide)]
  rw [countOcc_probe_skip (natToStr (lineY + 50)) _
    (fun c hc => digits_ne_eqSign (natToStr_digits _ c hc))]
  rw [countOcc_append_stop wordTagProbe '_' (by decide) "\" id=\"word_".data _ (by decide)]
  rw [show countOcc wordTagProbe "\" id=\"word_".data = 0 from by decide]
  rw [countOcc_probe_skip (natToStr wordId) _
    (fun c hc => digits_ne_eqSign (natToStr_digits _ c hc))]
  rw [countOcc_probe_skip "\">".data _ (by decide)]
  rw [countOcc_probe_skip clean _ (fun c hc => cleanChar_ne_eqSign (hclean c hc))]
  rw [countOcc_probe_skip "</span>\n".data _ (by decide)]
  omega

theorem countOcc_lineOpen_append (lineY lineId : Nat) (X : List Char) :
    countOcc wordTagProbe (lineOpenFrag lineY lineId ++ X) = countOcc wordTagProbe X := by
  unfold lineOpenFrag
  simp only [List.append_assoc]
  rw [countOcc_append_stop wordTagProbe ' ' (by decide)
    "\t\t<span class=\"ocr_line\" title=\"bbox 0 ".data _ (by decide)]
  rw [show countOcc wordTagProbe "\t\t<span class=\"ocr_line\" title=\"bbox 0 ".data = 0
    from by decide]
  rw [countOcc_probe_skip (natToStr lineY) _
    (fun c hc => digits_ne_eqSign (natToStr_digits _ c hc))]
  rw [countOcc_probe_skip " 1000 ".data _ (by decide)]
  rw [countOcc_probe_skip (natToStr (lineY + 50)) _
    (fun c hc => digits_ne_eqSign (natToStr_digits _ c hc))]
  rw [countOcc_append_stop wordTagProbe '_' (by decide) "\" id=\"line_".data _ (by decide)]
  rw [show countOcc wordTagProbe "\" id=\"line_".data = 0 from by decide]
  rw [countOcc_probe_skip (natToStr lineId) _
    (fun c hc => digits_ne_eqSign (natToStr_digits _ c hc))]
  rw [countOcc_probe_skip "\">\n".data _ (by decide)]
  omega

theorem countOcc_emitWords_append (lineY : Nat) :
    ∀ (ws : List (List Char)) (wordX wordId : Nat) (X : List Char),
      countOcc wordTagProbe ((emitWords lineY ws wordX wordId).1 ++ X) =
        tcount ws + countOcc wordTagProbe X
  | [], wordX, wordId, X => by simp [emitWords, tcount]
  | w :: ws, wordX, wordId, X => by
    simp only [emitWords]
    by_cases hw : w ≠ []
    · rw [if_pos hw]
      by_cases hc : cleanWordOf w ≠ []
      · rw [if_pos hc]
        simp only
        rw [List.append_assoc]
        rw [countOcc_wordFrag_append wordX lineY ((cleanWordOf w).length * 10) wordId
          (cleanWordOf w)
          (fun c hcm => by have := List.of_mem_filter hcm; simpa using this) _]
        rw [countOcc_emitWords_append lineY ws _ _ X]
        rw [tcount_cons, if_pos hc]
        omega
      · rw [if_neg hc]
        rw [countOcc_emitWords_append lineY ws wordX wordId X]
        rw [tcount_cons, if_neg hc]
        omega
    · rw [if_neg hw]
      rw [countOcc_emitWords_append lineY ws wordX wordId X]
      rw [tcount_cons]
      have hcw : ¬ cleanWordOf w ≠ [] := by
        simp only [ne_eq, not_not] at hw ⊢
        subst hw
        rfl
      rw [if_neg hcw]
      omega

theorem countOcc_emitLines_append :
    ∀ (lns : List (List Char)) (lineY wordId lIdx : Nat) (X : List Char),
      countOcc wordTagProbe ((emitLines lns lineY wordId lIdx).1 ++ X) =
        (lns.map tokCount).sum + countOcc wordTagProbe X
  | [], _, _, _, X => by simp [emitLines]
  | ln :: lns, lineY, wordId, lIdx, X => by
    simp only [emitLines]
    by_cases ht : jsTrimL ln ≠ []
    · rw [if_pos ht]
      simp only
      simp only [List.append_assoc]
      rw [countOcc_lineOpen_append]
      rw [countOcc_emitWords_append]
      rw [countOcc_probe_skip lineCloseFrag _ (by decide)]
      rw [countOcc_emitLines_append lns _ _ _ X]
      have : tcount (jsSplitWs (jsTrimL ln)) = tokCount ln := by
        rw [show tcount (jsSplitWs (jsTrimL ln)) = tokCount (jsTrimL ln) from rfl]
        exact tokCount_jsTrimL ln
      rw [this]
      simp only [List.map_cons, List.sum_cons]
      omega
    · rw [if_neg ht]
      rw [countOcc_emitLines_append lns lineY wordId (lIdx + 1) X]
      simp only [ne_eq, not_not] at ht
      simp only [List.map_cons, List.sum_cons]
      rw [show tokCount ln = 0 from tokCount_of_trim_nil ht]
      omega

theorem countOcc_emitParas_append :
    ∀ (ps : List (List Char)) (lineY wordId : Nat) (X : List Char),
      countOcc wordTagProbe ((emitParas ps lineY wordId).1 ++ X) =
        (ps.map tokCount).sum + countOcc wordTagProbe X
  | [], _, _, X => by simp [emitParas]
  | p :: ps, lineY, wordId, X => by
    simp only [emitParas]
    by_cases hp : jsTrimL p ≠ []
    · rw [if_pos hp]
      simp only
      rw [List.append_assoc]
      rw [countOcc_emitLines_append]
      rw [countOcc_emitParas_append ps _ _ X]
      rw [tokCount_splitOnNl p.length p (Nat.le_refl _)]
      simp only [List.map_cons, List.sum_cons]
      omega
    · rw [if_neg hp]
      rw [countOcc_emitParas_append ps lineY wordId X]
      simp only [ne_eq, not_not] at hp
      simp only [List.map_cons, List.sum_cons]
      rw [show tokCount p = 0 from tokCount_of_trim_nil hp]
      omega

theorem countOcc_header_append (X : List Char) :
    countOcc wordTagProbe (hocrHeader.data ++ X) = countOcc wordTagProbe X := by
  rw [countOcc_append_stop wordTagProbe '\n' (by decide) hocrHeader.data X (by decide)]
  rw [show countOcc wordTagProbe hocrHeader.data = 0 from by decide]
  omega

/-! ## Claim C5 — encoder word count -/

/-- C5: for every text with no blank line (every `split('\n')` line is
non-blank), the encoder emits exactly one `ocrx_word` region per
whitespace-separated token of the text that survives punctuation
stripping; tokens stripped to nothing emit no region. -/
theorem C5_encoder_word_count (T : String)
    (hnb : ∀ l ∈ splitOnNl T.data, jsTrimL l ≠ []) :
    wordRegionCount (convertTextToHocr T) = tokCount T.data := by
  unfold wordRegionCount convertTextToHocr
  rw [show (String.mk (hocrHeader.data ++
        ((emitParas (splitParas T.data) 100 1).1 ++ hocrFooter.data))).data
      = hocrHeader.data ++ ((emitParas (splitParas T.data) 100 1).1 ++ hocrFooter.data)
    from rfl]
  rw [countOcc_header_append]
  rw [countOcc_emitParas_append]
  rw [splitParas_noblank T.data hnb]
  rw [show countOcc wordTagProbe hocrFooter.data = 0 from by decide]
  simp

/-- Witness for `C5_encoder_word_count`: the two-line text
`"Ja gut.\nOk"` has three surviving tokens and three word regions. -/
theorem C5_encoder_word_count_witness :
    wordRegionCount (convertTextToHocr "Ja gut.\nOk") = tokCount "Ja gut.\nOk".data :=
  C5_encoder_word_count "Ja gut.\nOk" (by decide)

/-! ## Claim C6 — encoder totality and empty input -/

/-- C6: the encoder is a total function of the text (its embedding is
total by construction, mirroring the JS, which performs only pure
string work): every output is the fixed document head, an emitted body,
and the fixed closing tags.  On the empty string the output is exactly
head plus tail — a well-formed document with zero word regions — and
`hasXEntityAnnotationInHocr` over that content is false. -/
theorem C6_encoder_total_empty :
    (∀ T : String, (convertTextToHocr T).data =
      hocrHeader.data ++ ((emitParas (splitParas T.data) 100 1).1 ++ hocrFooter.data)) ∧
    convertTextToHocr "" = hocrHeader ++ hocrFooter ∧
    wordRegionCount (convertTextToHocr "") = 0 ∧
    hasXEntityAnnotationInHocr (convertTextToHocr "") = false := by
  refine ⟨fun T => rfl, ?_, ?_, ?_⟩ <;> decide

/-! ## Claim C10 — punctuation stripping -/

/-- C10: the encoder's punctuation strip keeps exactly the JS `\w`
class `[A-Za-z0-9_]` and `\s` characters: a character is kept iff it
was present and belongs to the class; non-ASCII letters such as German
umlauts are deleted (`Grüße` is emitted as `Gre`), and a token of only
stripped characters (`!!!`) produces no word region. -/
theorem C10_punctuation_strip :
    (∀ (w : List Char) (c : Char),
      c ∈ cleanWordOf w ↔ (c ∈ w ∧ (isJsWordChar c || isJsWs c) = true)) ∧
    cleanWordOf "Grüße".data = "Gre".data ∧
    wordRegionCount (convertTextToHocr "Grüße !!!") = 1 ∧
    countOcc ">Gre</span>".data (convertTextToHocr "Grüße !!!").data = 1 := by
  refine ⟨?_, ?_, ?_, ?_⟩
  · intro w c
    simp [cleanWordOf, List.mem_filter]
  · decide
  · decide
  · decide

/-- Witness for `C10_punctuation_strip` at a concrete character. -/
theorem C10_punctuation_strip_witness :
    'G' ∈ cleanWordOf "Grüße".data ↔
      ('G' ∈ "Grüße".data ∧ (isJsWordChar 'G' || isJsWs 'G') = true) :=
  C10_punctuation_strip.1 "Grüße".data 'G'

/-! ## Title-attribute label extraction
(`extractXEntityFromTitle`, parse_hocr_directly.js lines 244-265) -/

/-- Model of JS `String.split(sep)` for a one-character separator. -/
def splitOnChar (sep : Char) : List Char → List (List Char)
  | [] => [[]]
  | c :: rest =>
    if c = sep then [] :: splitOnChar sep rest
    else consTok c (splitOnChar sep rest)

/-- Model of JS `String.replace(pat, rep)` with string arguments: only
the first occurrence is replaced. -/
def replaceFirstF (pat rep : List Char) : Nat → List Char → List Char
  | _, [] => []
  | 0, l => l
  | fuel + 1, c :: rest =>
    if prefEqBy (fun a b => a = b) pat (c :: rest) then
      rep ++ rest.drop (pat.length - 1)
    else c :: replaceFirstF pat rep fuel rest

def replaceFirst (pat rep cs : List Char) : List Char :=
  replaceFirstF pat rep cs.length cs

/-- The `for (const part of parts)` loop of `extractXEntityFromTitle`:
the first `;`-segment whose trimmed form starts with `x_entity` decides
the result; the marker is removed (first occurrence), the remainder is
trimmed and split on whitespace, and all tokens but the last form the
label (the whole token when there is exactly one). -/
def extractLoop : List (List Char) → Option String
  | [] => none
  | part :: parts =>
    if "x_entity".data.isPrefixOf (jsTrimL part) then
      if (jsSplitWs (jsTrimL (replaceFirst "x_entity".data [] (jsTrimL part)))).length > 0 then
        some (if (jsSplitWs (jsTrimL (replaceFirst "x_entity".data [] (jsTrimL part)))).length = 1
              then ⟨(jsSplitWs (jsTrimL (replaceFirst "x_entity".data [] (jsTrimL part)))).headD []⟩
              else ⟨List.intercalate [' ']
                (jsSplitWs (jsTrimL (replaceFirst "x_entity".data [] (jsTrimL part)))).dropLast⟩)
      else extractLoop parts
    else extractLoop parts

/-- `extractXEntityFromTitle` (parse_hocr_directly.js lines 244-265). -/
def extractXEntityFromTitle (title : String) : Option String :=
  if ¬ jsIncludes title "x_entity" then none
  else extractLoop (splitOnChar ';' title.data)

theorem prefEq_lit_refl : ∀ l : List Char, prefEqBy (fun a b => a = b) l l = true
  | [] => rfl
  | c :: rest => by
    show (decide (c = c) && prefEqBy (fun a b => a = b) rest rest) = true
    rw [prefEq_lit_refl rest]
    simp

theorem prefEq_lit_of_prefix (pat rest : List Char) :
    prefEqBy (fun a b => a = b) pat (pat ++ rest) = true := by
  rw [prefEqBy_append_left _ pat pat rest (Nat.le_refl _)]
  exact prefEq_lit_refl pat

theorem isPrefixOf_append_self : ∀ (pat rest : List Char), pat.isPrefixOf (pat ++ rest) = true
  | [], _ => by simp [List.isPrefixOf]
  | p :: ps, rest => by
    show (p == p && ps.isPrefixOf (ps ++ rest)) = true
    rw [isPrefixOf_append_self ps rest]
    simp

theorem splitOnChar_no_sep (sep : Char) :
    ∀ cs : List Char, sep ∉ cs → splitOnChar sep cs = [cs]
  | [], _ => rfl
  | c :: rest, h => by
    show (if c = sep then _ else consTok c (splitOnChar sep rest)) = _
    rw [if_neg (fun e => h (by rw [← e]; exact List.mem_cons_self c rest)),
      splitOnChar_no_sep sep rest (fun hm => h (List.mem_cons_of_mem c hm))]
    rfl

theorem replaceFirst_of_pref (pat rest : List Char) (hne : pat ≠ []) :
    replaceFirst pat [] (pat ++ rest) = rest := by
  obtain ⟨p, ps, rfl⟩ : ∃ p ps, pat = p :: ps := by
    cases pat with
    | nil => exact absurd rfl hne
    | cons p ps => exact ⟨p, ps, rfl⟩
  unfold replaceFirst
  rw [show (p :: ps) ++ rest = p :: (ps ++ rest) from rfl]
  rw [show (p :: (ps ++ rest)).length = (ps ++ rest).length + 1 from rfl]
  rw [show replaceFirstF (p :: ps) [] ((ps ++ rest).length + 1) (p :: (ps ++ rest))
      = (if prefEqBy (fun a b => a = b) (p :: ps) (p :: (ps ++ rest)) then
          [] ++ (ps ++ rest).drop ((p :: ps).length - 1)
        else p :: replaceFirstF (p :: ps) [] (ps ++ rest).length (ps ++ rest)) from rfl]
  rw [if_pos (by
    rw [show p :: (ps ++ rest) = (p :: ps) ++ rest from rfl]
    exact prefEq_lit_of_prefix (p :: ps) rest)]
  simp only [List.nil_append, List.length_cons]
  rw [show ps.length + 1 - 1 = ps.length from rfl]
  exact List.drop_left ps rest

/-- A list with clean edges is unchanged by JS `trim`. -/
theorem jsTrimL_id : ∀ (cs : List Char), cs ≠ [] → headIsWs cs = false →
    (∀ g, cs.getLast? = some g → isJsWs g = false) → jsTrimL cs = cs := by
  intro cs h2 hh h4
  obtain ⟨c, cs', rfl⟩ : ∃ c cs', cs = c :: cs' := by
    cases cs with
    | nil => exact absurd rfl h2
    | cons c cs' => exact ⟨c, cs', rfl⟩
  unfold jsTrimL
  rw [List.dropWhile_cons_of_neg (by
    have : isJsWs c = false := hh
    simp [this])]
  obtain ⟨g, hg⟩ : ∃ g, (c :: cs').getLast? = some g := by
    cases hgl : (c :: cs').getLast? with
    | none => simp at hgl
    | some g => exact ⟨g, rfl⟩
  obtain ⟨rev, hrev⟩ : ∃ rev, (c :: cs').reverse = g :: rev := by
    cases hr : (c :: cs').reverse with
    | nil => simp at hr
    | cons y ys =>
      refine ⟨ys, ?_⟩
      have hh2 : (c :: cs').reverse.head? = some y := by rw [hr]; rfl
      rw [List.head?_reverse, hg] at hh2
      simp only [Option.some.injEq] at hh2
      rw [hh2]
  rw [hrev]
  rw [List.dropWhile_cons_of_neg (by simp [h4 g hg])]
  rw [← hrev]
  exact List.reverse_reverse _

/-- Trimming a string with one leading blank and clean edges. -/
theorem jsTrimL_space_cons (body : List Char) (h2 : body ≠ [])
    (h3 : headIsWs body = false)
    (h4 : ∀ g, body.getLast? = some g → isJsWs g = false) :
    jsTrimL (' ' :: body) = body := by
  unfold jsTrimL
  rw [List.dropWhile_cons_of_pos (by decide)]
  exact jsTrimL_id body h2 h3 h4

/-! ## Claim C4 — title-attribute label extraction -/

/-- C4: (i) the documented scenario extracts `first_name`; (ii) a title
without the `x_entity` marker yields `null`; (iii) in general, for a
title that is one marker segment `x_entity <body>` whose body has no
`;` and clean edges, the result is the whitespace tokens of the body
joined by single spaces with the last token dropped (the whole token
when there is exactly one). -/
theorem C4_extract_x_entity :
    extractXEntityFromTitle "x_sensibility 1; bbox 414 176 526 200; x_entity first_name 0"
      = some "first_name" ∧
    (∀ title : String, jsIncludes title "x_entity" = false →
      extractXEntityFromTitle title = none) ∧
    (∀ body : String, ';' ∉ body.data → body.data ≠ [] →
      headIsWs body.data = false →
      (∀ g, body.data.getLast? = some g → isJsWs g = false) →
      extractXEntityFromTitle ("x_entity " ++ body) =
        some (if (jsSplitWs body.data).length = 1 then ⟨(jsSplitWs body.data).headD []⟩
              else ⟨List.intercalate [' '] (jsSplitWs body.data).dropLast⟩)) := by
  refine ⟨by decide, ?_, ?_⟩
  · intro title h
    simp [extractXEntityFromTitle, h]
  · intro body h1 h2 h3 h4
    have hdata : ("x_entity " ++ body).data = "x_entity".data ++ (' ' :: body.data) := by
      rw [String.data_append]
      rfl
    have hinc : jsIncludes ("x_entity " ++ body) "x_entity" = true := by
      unfold jsIncludes containsSub
      rw [hdata]
      refine decide_eq_true ⟨0, by simp, ?_⟩
      rw [List.drop_zero]
      exact prefEq_lit_of_prefix "x_entity".data (' ' :: body.data)
    unfold extractXEntityFromTitle
    rw [if_neg (by rw [hinc]; simp)]
    rw [hdata]
    rw [splitOnChar_no_sep ';' ("x_entity".data ++ (' ' :: body.data)) (by
      intro hm
      rcases List.mem_append.mp hm with h | h
      · simp at h
      · rcases List.mem_cons.mp h with h | h
        · simp at h
        · exact h1 h)]
    have htrim : jsTrimL ("x_entity".data ++ (' ' :: body.data))
        = "x_entity".data ++ (' ' :: body.data) := by
      refine jsTrimL_id _ (by simp) (by rfl) ?_
      intro g hg
      rw [List.getLast?_append] at hg
      rw [show (' ' :: body.data).getLast? = body.data.getLast? from by
        rw [show (' ' :: body.data) = [' '] ++ body.data from rfl]
        rw [List.getLast?_append]
        cases hb : body.data.getLast? with
        | none => exact absurd (by simpa using hb) h2
        | some x => rfl] at hg
      cases hb : body.data.getLast? with
      | none => exact absurd (by simpa using hb) h2
      | some x =>
        rw [hb] at hg
        simp only [Option.or_some, Option.some.injEq] at hg
        rw [← hg]
        exact h4 x hb
    show extractLoop (("x_entity".data ++ (' ' :: body.data)) :: []) = _
    rw [show extractLoop (("x_entity".data ++ (' ' :: body.data)) :: [])
        = (if "x_entity".data.isPrefixOf (jsTrimL ("x_entity".data ++ (' ' :: body.data))) then
            (if (jsSplitWs (jsTrimL (replaceFirst "x_entity".data []
                (jsTrimL ("x_entity".data ++ (' ' :: body.data)))))).length > 0 then
              some (if (jsSplitWs (jsTrimL (replaceFirst "x_entity".data []
                    (jsTrimL ("x_entity".data ++ (' ' :: body.data)))))).length = 1
                  then ⟨(jsSplitWs (jsTrimL (replaceFirst "x_entity".data []
                    (jsTrimL ("x_entity".data ++ (' ' :: body.data)))))).headD []⟩
                  else ⟨List.intercalate [' '] (jsSplitWs (jsTrimL (replaceFirst "x_entity".data []
                    (jsTrimL ("x_entity".data ++ (' ' :: body.data)))))).dropLast⟩)
            else extractLoop [])
          else extractLoop []) from rfl]
    rw [htrim]
    rw [if_pos (by rw [isPrefixOf_append_self])]
    rw [replaceFirst_of_pref "x_entity".data (' ' :: body.data) (by decide)]
    rw [jsTrimL_space_cons body.data h2 h3 h4]
    rw [if_pos (by
      have := jsSplitWs_ne_nil body.data
      cases h : jsSplitWs body.data with
      | nil => exact absurd h this
      | cons t ts => simp)]

/-- Witness for `C4_extract_x_entity`: the body `"first_name 0"` has
two tokens and yields the label `"first_name"`. -/
theorem C4_extract_x_entity_witness :
    extractXEntityFromTitle ("x_entity " ++ "first_name 0") =
      some (if (jsSplitWs "first_name 0".data).length = 1
            then ⟨(jsSplitWs "first_name 0".data).headD []⟩
            else ⟨List.intercalate [' '] (jsSplitWs "first_name 0".data).dropLast⟩) :=
  C4_extract_x_entity.2.2 "first_name 0" (by decide) (by decide) (by decide)
    (by
      intro g hg
      rw [show "first_name 0".data.getLast? = some '0' from by decide] at hg
      simp only [Option.some.injEq] at hg
      subst hg
      decide)

/-! ## The JSON tree model and `parseHocrContentForEntities`
(src/worker/src/index.js lines 305-349)

JSON values are modelled as a three-sorted mutual inductive (values,
array elements, object fields) so that all traversals are structural.
JSON numbers are modelled as naturals (the data carries only ids).
Object field lists represent JS objects: keys are unique, in insertion
order. -/

mutual
inductive Json where
  | null
  | bool (b : Bool)
  | num (n : Nat)
  | str (s : String)
  | arr (elems : JsonList)
  | obj (fields : JsonFields)

inductive JsonList where
  | nil
  | cons (hd : Json) (tl : JsonList)

inductive JsonFields where
  | nil
  | cons (k : String) (v : Json) (tl : JsonFields)
end

deriving instance DecidableEq for Json
deriving instance DecidableEq for JsonList
deriving instance DecidableEq for JsonFields

/-- JS truthiness of a value (a missing property is handled at the use
sites). -/
def truthy : Json → Bool
  | .null => false
  | .bool b => b
  | .num n => n ≠ 0
  | .str s => s ≠ ""
  | .arr _ => true
  | .obj _ => true

/-- JS property access on an object (keys are unique). -/
def getField : JsonFields → String → Option Json
  | .nil, _ => none
  | .cons k v tl, key => if k = key then some v else getField tl key

/-- `typeof x === 'object' && x !== null`. -/
def isObjLike : Json → Bool
  | .arr _ => true
  | .obj _ => true
  | _ => false

/-! JS string coercion, for the mapping key `mapping[obj.text]`
(array elements coerce elementwise, `null` inside an array joins as the
empty string). -/
mutual
def jsToKeyString : Json → String
  | .null => "null"
  | .bool b => if b then "true" else "false"
  | .num n => ⟨natToStr n⟩
  | .str s => s
  | .arr es => ⟨jsToKeyElems es⟩
  | .obj _ => "[object Object]"

def jsToKeyElems : JsonList → List Char
  | .nil => []
  | .cons h .nil => (match h with | .null => "" | x => jsToKeyString x).data
  | .cons h (.cons h2 tl) =>
    (match h with | .null => "" | x => jsToKeyString x).data ++
      ',' :: jsToKeyElems (.cons h2 tl)
end

/-- The word-node test of line 327:
`obj.type === 'word' && obj.attributes && obj.attributes.x_entity && obj.id && obj.text`. -/
def isWordNode (fs : JsonFields) : Bool :=
  decide (getField fs "type" = some (Json.str "word")) &&
  (match getField fs "attributes" with
   | some (.obj afs) =>
     (match getField afs "x_entity" with
      | some x => truthy x
      | none => false)
   | _ => false) &&
  (match getField fs "id" with | some i => truthy i | none => false) &&
  (match getField fs "text" with | some t => truthy t | none => false)

/-- The entity key of line 328:
`obj.attributes.x_entity.split(/\s+/).join('_')` (`x_entity` is a
string on every tree the endpoint handles; a truthy non-string would
make the JS throw). -/
def entityKeyOf (fs : JsonFields) : String :=
  match getField fs "attributes" with
  | some (.obj afs) =>
    (match getField afs "x_entity" with
     | some (.str s) => ⟨List.intercalate ['_'] (jsSplitWs s.data)⟩
     | _ => "")
  | _ => ""

/-- The mapping key of line 329: `obj.text` coerced to a string. -/
def textKeyOf (fs : JsonFields) : String :=
  match getField fs "text" with
  | some t => jsToKeyString t
  | none => ""

/-! The values `traverseJson` is invoked on past its guard, in call
order: the node itself, then (for objects) every element of a
`children` array, then every object-valued property — under which the
`children` array itself, and hence its elements a second time, are
reached again. -/
mutual
def visits : Json → List Json
  | .null => []
  | .bool _ => []
  | .num _ => []
  | .str _ => []
  | .arr es => Json.arr es :: visitsElems es
  | .obj fs => Json.obj fs :: (childVisits fs ++ fieldVisits fs)

def visitsElems : JsonList → List Json
  | .nil => []
  | .cons h tl => visits h ++ visitsElems tl

/-- Step `obj.children && Array.isArray(obj.children)`: the elements of
the first `children` field, when it is an array. -/
def childVisits : JsonFields → List Json
  | .nil => []
  | .cons k v tl => if k = "children" then childArrVisits v else childVisits tl

def childArrVisits : Json → List Json
  | .arr es => visitsElems es
  | _ => []

/-- Step `for (const key in obj)`: every object-valued property. -/
def fieldVisits : JsonFields → List Json
  | .nil => []
  | .cons _ v tl => (if isObjLike v then visits v else []) ++ fieldVisits tl
end

/-! The `mapping[obj.text] = entityKey` assignments of the traversal,
in execution order. -/
mutual
def assigns : Json → List (String × String)
  | .null => []
  | .bool _ => []
  | .num _ => []
  | .str _ => []
  | .arr es => assignsElems es
  | .obj fs =>
    (if isWordNode fs then [(textKeyOf fs, entityKeyOf fs)] else []) ++
      (childAssigns fs ++ fieldAssigns fs)

def assignsElems : JsonList → List (String × String)
  | .nil => []
  | .cons h tl => assigns h ++ assignsElems tl

def childAssigns : JsonFields → List (String × String)
  | .nil => []
  | .cons k v tl => if k = "children" then childArrAssigns v else childAssigns tl

def childArrAssigns : Json → List (String × String)
  | .arr es => assignsElems es
  | _ => []

def fieldAssigns : JsonFields → List (String × String)
  | .nil => []
  | .cons _ v tl => (if isObjLike v then assigns v else []) ++ fieldAssigns tl
end

/-- Replaying the assignments on the (initially empty) `mapping`
object: last writer wins, first-insertion order. -/
def buildMapping (l : List (String × String)) : List (String × String) :=
  l.foldl (fun m kv => jsObjInsert m kv.1 kv.2) []

/-! The object-like subterms of a tree — its nodes. -/
mutual
def subNodes : Json → List Json
  | .null => []
  | .bool _ => []
  | .num _ => []
  | .str _ => []
  | .arr es => Json.arr es :: subNodesElems es
  | .obj fs => Json.obj fs :: subNodesFields fs

def subNodesElems : JsonList → List Json
  | .nil => []
  | .cons h tl => subNodes h ++ subNodesElems tl

def subNodesFields : JsonFields → List Json
  | .nil => []
  | .cons _ v tl => subNodes v ++ subNodesFields tl
end

/-! ## `JSON.parse` / `JSON.stringify` model

`parseHocrContentForEntities` accepts a string and calls the platform's
`JSON.parse` on it, yielding `undefined` (here: `none`) on a parse
error.  The platform pair is modelled by an executable recursive-descent
parser and a canonical (whitespace-free, escape-free) serializer; on
trees whose strings contain no `"` or `\` the two are mutually inverse,
as the platform pair is. -/

def headIsDigit : List Char → Bool
  | [] => false
  | c :: _ => isDigitB c

def parseNatDigits : List Char → Nat → (Nat × List Char)
  | [], acc => (acc, [])
  | c :: rest, acc =>
    if isDigitB c then parseNatDigits rest (acc * 10 + (c.toNat - 48))
    else (acc, c :: rest)

def parseStrChars : List Char → Option (List Char × List Char)
  | [] => none
  | c :: rest =>
    if c = '"' then some ([], rest)
    else (parseStrChars rest).map (fun p => (c :: p.1, p.2))

/-- Consume an expected literal, returning the remainder. -/
def parseLit : List Char → List Char → Option (List Char)
  | [], rest => some rest
  | _ :: _, [] => none
  | l :: ls, c :: rest => if c = l then parseLit ls rest else none

mutual
def parseVal : Nat → List Char → Option (Json × List Char)
  | 0, _ => none
  | fuel + 1, cs =>
    match cs with
    | [] => none
    | c :: rest =>
      if c = 'n' then (parseLit "ull".data rest).map (fun r => (Json.null, r))
      else if c = 't' then (parseLit "rue".data rest).map (fun r => (Json.bool true, r))
      else if c = 'f' then (parseLit "alse".data rest).map (fun r => (Json.bool false, r))
      else if c = '"' then
        (parseStrChars rest).map (fun p => (Json.str ⟨p.1⟩, p.2))
      else if c = '[' then
        match rest with
        | [] => none
        | d :: r2 =>
          if d = ']' then some (Json.arr JsonList.nil, r2)
          else (parseElems fuel (d :: r2)).map (fun p => (Json.arr p.1, p.2))
      else if c = '\x7b' then
        match rest with
        | [] => none
        | d :: r2 =>
          if d = '\x7d' then some (Json.obj JsonFields.nil, r2)
          else (parseFields fuel (d :: r2)).map (fun p => (Json.obj p.1, p.2))
      else if isDigitB c then
        some (Json.num (parseNatDigits (c :: rest) 0).1, (parseNatDigits (c :: rest) 0).2)
      else none

def parseElems : Nat → List Char → Option (JsonList × List Char)
  | 0, _ => none
  | fuel + 1, cs =>
    match parseVal fuel cs with
    | none => none
    | some (v, rest) =>
      match rest with
      | [] => none
      | d :: r =>
        if d = ',' then (parseElems fuel r).map (fun p => (JsonList.cons v p.1, p.2))
        else if d = ']' then some (JsonList.cons v JsonList.nil, r)
        else none

def parseFields : Nat → List Char → Option (JsonFields × List Char)
  | 0, _ => none
  | fuel + 1, cs =>
    match cs with
    | [] => none
    | c :: rest =>
      if c = '"' then
        match parseStrChars rest with
        | none => none
        | some (k, rest2) =>
          match rest2 with
          | [] => none
          | d :: rest3 =>
            if d = ':' then
              match parseVal fuel rest3 with
              | none => none
              | some (v, rest4) =>
                match rest4 with
                | [] => none
                | e :: r =>
                  if e = ',' then
                    (parseFields fuel r).map (fun p => (JsonFields.cons ⟨k⟩ v p.1, p.2))
                  else if e = '\x7d' then
                    some (JsonFields.cons ⟨k⟩ v JsonFields.nil, r)
                  else none
            else none
      else none
end

mutual
def stringify : Json → List Char
  | .null => "null".data
  | .bool true => "true".data
  | .bool false => "false".data
  | .num n => natToStr n
  | .str s => '"' :: (s.data ++ ['"'])
  | .arr es => '[' :: (stringifyElems es ++ [']'])
  | .obj fs => '\x7b' :: (stringifyFields fs ++ ['\x7d'])

def stringifyElems : JsonList → List Char
  | .nil => []
  | .cons h .nil => stringify h
  | .cons h (.cons h2 tl2) =>
      stringify h ++ ',' :: stringifyElems (JsonList.cons h2 tl2)

def stringifyFields : JsonFields → List Char
  | .nil => []
  | .cons k v .nil => '"' :: (k.data ++ '"' :: ':' :: stringify v)
  | .cons k v (.cons k2 v2 tl2) =>
      ('"' :: (k.data ++ '"' :: ':' :: stringify v)) ++
        ',' :: stringifyFields (JsonFields.cons k2 v2 tl2)
end

/-- Strings serializable without escapes. -/
def strOk (s : String) : Bool := s.data.all (fun c => decide (c ≠ '"') && decide (c ≠ '\\'))

mutual
def wfJson : Json → Bool
  | .null => true
  | .bool _ => true
  | .num _ => true
  | .str s => strOk s
  | .arr es => wfElems es
  | .obj fs => wfFields fs

def wfElems : JsonList → Bool
  | .nil => true
  | .cons h tl => wfJson h && wfElems tl

def wfFields : JsonFields → Bool
  | .nil => true
  | .cons k v tl => strOk k && wfJson v && wfFields tl
end

mutual
def jsonFuel : Json → Nat
  | .arr es => 1 + elemsFuel es
  | .obj fs => 1 + fieldsFuel fs
  | _ => 1

def elemsFuel : JsonList → Nat
  | .nil => 0
  | .cons h tl => 1 + jsonFuel h + elemsFuel tl

def fieldsFuel : JsonFields → Nat
  | .nil => 0
  | .cons _ v tl => 1 + jsonFuel v + fieldsFuel tl
end

/-- Model of `JSON.parse`: parse the whole input or fail. -/
def parseJson (s : String) : Option Json :=
  match parseVal (s.data.length + 1) s.data with
  | some (t, []) => some t
  | _ => none

/-- `parseHocrContentForEntities` (src/worker/src/index.js lines
305-349): a string input is `JSON.parse`d (a failure is logged and
leaves `data` undefined, so the traversal sees nothing); a tree input
is traversed directly.  The traversal's assignments are replayed on an
initially empty object. -/
def parseHocrContentForEntities : Sum String Json → List (String × String)
  | .inl s =>
    match parseJson s with
    | some t => buildMapping (assigns t)
    | none => []
  | .inr t => buildMapping (assigns t)

/-- The scenario word node's fields: `type:"word",
attributes:{x_entity:"city"}, id:1, text:"Berlin"`. -/
def c3BerlinFields : JsonFields :=
  .cons "type" (.str "word")
    (.cons "attributes" (.obj (.cons "x_entity" (.str "city") .nil))
      (.cons "id" (.num 1)
        (.cons "text" (.str "Berlin") .nil)))

/-- The scenario word node. -/
def c3Berlin : Json := .obj c3BerlinFields

/-- A tree holding the word node in a `children` array. -/
def c3Tree : Json := .obj (.cons "children" (.arr (.cons c3Berlin .nil)) .nil)

/-- The word node nested three levels deep under unrelated keys. -/
def c3Deep : Json :=
  .obj (.cons "a" (.obj (.cons "b" (.obj (.cons "c" c3Berlin .nil)) .nil)) .nil)

theorem subNodes_of_not_objLike (v : Json) (h : isObjLike v = false) :
    subNodes v = [] := by
  cases v with
  | null => rfl
  | bool b => rfl
  | num n => rfl
  | str s => rfl
  | arr es => exact absurd h (by simp [isObjLike])
  | obj fs => exact absurd h (by simp [isObjLike])

theorem subNodes_subset_visits :
    ∀ t : Json, ∀ n ∈ subNodes t, n ∈ visits t :=
  @Json.rec (fun t => ∀ n ∈ subNodes t, n ∈ visits t)
    (fun es => ∀ n ∈ subNodesElems es, n ∈ visitsElems es)
    (fun fs => ∀ n ∈ subNodesFields fs, n ∈ fieldVisits fs)
    (by intro n h; simp [subNodes] at h)
    (fun b => by intro n h; simp [subNodes] at h)
    (fun m => by intro n h; simp [subNodes] at h)
    (fun s => by intro n h; simp [subNodes] at h)
    (fun es ih => by
      intro n h
      rw [subNodes] at h
      rw [visits]
      rcases List.mem_cons.mp h with h1 | h2
      · exact h1 ▸ List.mem_cons_self _ _
      · exact List.mem_cons_of_mem _ (ih n h2))
    (fun fs ih => by
      intro n h
      rw [subNodes] at h
      rw [visits]
      rcases List.mem_cons.mp h with h1 | h2
      · exact h1 ▸ List.mem_cons_self _ _
      · exact List.mem_cons_of_mem _ (List.mem_append_right _ (ih n h2)))
    (by intro n h; simp [subNodesElems] at h)
    (fun hd tl ih1 ih2 => by
      intro n h
      rw [subNodesElems] at h
      rw [visitsElems]
      rcases List.mem_append.mp h with h1 | h2
      · exact List.mem_append_left _ (ih1 n h1)
      · exact List.mem_append_right _ (ih2 n h2))
    (by intro n h; simp [subNodesFields] at h)
    (fun k v tl ih1 ih2 => by
      intro n h
      rw [subNodesFields] at h
      rw [fieldVisits]
      rcases List.mem_append.mp h with h1 | h2
      · cases ho : isObjLike v with
        | true => simp only [ho, if_true]; exact List.mem_append_left _ (ih1 n h1)
        | false => rw [subNodes_of_not_objLike v ho] at h1; simp at h1
      · exact List.mem_append_right _ (ih2 n h2))

theorem wordNode_assigned :
    ∀ t : Json, ∀ fs : JsonFields, Json.obj fs ∈ subNodes t →
      isWordNode fs = true → (textKeyOf fs, entityKeyOf fs) ∈ assigns t :=
  @Json.rec
    (fun t => ∀ fs : JsonFields, Json.obj fs ∈ subNodes t →
      isWordNode fs = true → (textKeyOf fs, entityKeyOf fs) ∈ assigns t)
    (fun es => ∀ fs : JsonFields, Json.obj fs ∈ subNodesElems es →
      isWordNode fs = true → (textKeyOf fs, entityKeyOf fs) ∈ assignsElems es)
    (fun gs => ∀ fs : JsonFields, Json.obj fs ∈ subNodesFields gs →
      isWordNode fs = true → (textKeyOf fs, entityKeyOf fs) ∈ fieldAssigns gs)
    (by intro fs h _; simp [subNodes] at h)
    (fun b => by intro fs h _; simp [subNodes] at h)
    (fun m => by intro fs h _; simp [subNodes] at h)
    (fun s => by intro fs h _; simp [subNodes] at h)
    (fun es ih => by
      intro fs h hw
      rw [subNodes] at h
      rw [assigns]
      rcases List.mem_cons.mp h with h1 | h2
      · exact absurd h1 (by intro e; cases e)
      · exact ih fs h2 hw)
    (fun gs ih => by
      intro fs h hw
      rw [subNodes] at h
      rw [assigns]
      rcases List.mem_cons.mp h with h1 | h2
      · have e : gs = fs := by cases h1; rfl
        subst e
        rw [hw, if_pos rfl]
        exact List.mem_cons_self _ _
      · exact List.mem_append_right _ (List.mem_append_right _ (ih fs h2 hw)))
    (by intro fs h _; simp [subNodesElems] at h)
    (fun hd tl ih1 ih2 => by
      intro fs h hw
      rw [subNodesElems] at h
      rw [assignsElems]
      rcases List.mem_append.mp h with h1 | h2
      · exact List.mem_append_left _ (ih1 fs h1 hw)
      · exact List.mem_append_right _ (ih2 fs h2 hw))
    (by intro fs h _; simp [subNodesFields] at h)
    (fun k v tl ih1 ih2 => by
      intro fs h hw
      rw [subNodesFields] at h
      rw [fieldAssigns]
      rcases List.mem_append.mp h with h1 | h2
      · cases ho : isObjLike v with
        | true => simp only [ho, if_true]; exact List.mem_append_left _ (ih1 fs h1 hw)
        | false => rw [subNodes_of_not_objLike v ho] at h1; simp at h1
      · exact List.mem_append_right _ (ih2 fs h2 hw))

/-- C3: counterexample to "visits every node exactly once": a node held
in a `children` array is traversed twice — once by the `children`
forEach, once again when the `for (const key in obj)` loop descends
into the `children` property itself. -/
theorem C3_counterexample :
    c3Berlin ∈ subNodes c3Tree ∧ (visits c3Tree).count c3Berlin = 2 := by
  constructor
  · decide
  · decide

/-- C3 (amended): the traversal reaches every node of the tree at least
once — nodes reachable only through a `children` array and nodes
reachable only through other object-valued properties alike (nodes in a
`children` array are reached twice, see the counterexample) — and for
every qualifying word node records the assignment
`mapping[text] = x_entity split on whitespace, joined with '_'`; a
qualifying node nested three levels deep under unrelated keys is found,
whether the tree is passed directly or as its JSON string. -/
theorem C3_traversal_amended :
    (∀ t : Json, ∀ n ∈ subNodes t, n ∈ visits t) ∧
    (∀ t : Json, ∀ fs : JsonFields, Json.obj fs ∈ subNodes t →
      isWordNode fs = true → (textKeyOf fs, entityKeyOf fs) ∈ assigns t) ∧
    parseHocrContentForEntities (Sum.inr c3Deep) = [("Berlin", "city")] ∧
    parseHocrContentForEntities (Sum.inl ⟨stringify c3Deep⟩) = [("Berlin", "city")] :=
  ⟨subNodes_subset_visits, wordNode_assigned, by decide, by decide⟩

/-! ## Parser/serializer inversion, for C7 -/

/-- The value of a most-significant-first digit string, on top of an
accumulator. -/
def digitsVal : Nat → List Char → Nat
  | acc, [] => acc
  | acc, c :: rest => digitsVal (acc * 10 + (c.toNat - 48)) rest

theorem headIsDigit_cons (c : Char) (l : List Char) :
    headIsDigit (c :: l) = isDigitB c := rfl

theorem parseNatDigits_spec :
    ∀ (ds : List Char) (acc : Nat) (rest : List Char),
      (∀ c ∈ ds, isDigitB c = true) → headIsDigit rest = false →
      parseNatDigits (ds ++ rest) acc = (digitsVal acc ds, rest) := by
  intro ds
  induction ds with
  | nil =>
    intro acc rest _ hr
    cases rest with
    | nil => rfl
    | cons c r =>
      rw [headIsDigit_cons] at hr
      rw [List.nil_append, parseNatDigits, if_neg (by simp [hr])]
      rfl
  | cons c ds ih =>
    intro acc rest hd hr
    have hc : isDigitB c = true := hd c (List.mem_cons_self c ds)
    rw [List.cons_append, parseNatDigits, if_pos hc,
      ih _ rest (fun x hx => hd x (List.mem_cons_of_mem _ hx)) hr]
    rfl

theorem digitsVal_append_one :
    ∀ (xs : List Char) (acc : Nat) (c : Char),
      digitsVal acc (xs ++ [c]) = digitsVal acc xs * 10 + (c.toNat - 48) := by
  intro xs
  induction xs with
  | nil => intro acc c; rfl
  | cons x xs ih =>
    intro acc c
    show digitsVal (acc * 10 + (x.toNat - 48)) (xs ++ [c]) =
      digitsVal (acc * 10 + (x.toNat - 48)) xs * 10 + (c.toNat - 48)
    exact ih _ c

theorem digitChar_val : ∀ d : Nat, d < 10 → (digitChar d).toNat - 48 = d := by
  intro d hd
  interval_cases d <;> decide

theorem digitsVal_natDigitsRev :
    ∀ (fuel n acc : Nat), n ≤ fuel →
      digitsVal acc ((natDigitsRev fuel n).reverse) =
        acc * 10 ^ (natDigitsRev fuel n).length + n := by
  intro fuel
  induction fuel with
  | zero =>
    intro n acc h
    have hn : n = 0 := Nat.le_zero.mp h
    subst hn
    rw [show digitsVal acc ((natDigitsRev 0 0).reverse) = acc from rfl]
    norm_num [natDigitsRev]
  | succ fuel ih =>
    intro n acc h
    by_cases hn : n = 0
    · subst hn
      rw [show digitsVal acc ((natDigitsRev (fuel + 1) 0).reverse) = acc from rfl]
      norm_num [natDigitsRev]
    · rw [natDigitsRev, if_neg hn, List.reverse_cons, digitsVal_append_one,
        ih (n / 10) acc (by omega), digitChar_val (n % 10) (Nat.mod_lt _ (by norm_num)),
        List.length_cons, pow_succ]
      have hdm := Nat.div_add_mod n 10
      generalize (natDigitsRev fuel (n / 10)).length = L
      calc (acc * 10 ^ L + n / 10) * 10 + n % 10
          = acc * (10 ^ L * 10) + (10 * (n / 10) + n % 10) := by ring
        _ = acc * (10 ^ L * 10) + n := by rw [hdm]

theorem digitsVal_natToStr (n : Nat) : digitsVal 0 (natToStr n) = n := by
  by_cases hn : n = 0
  · subst hn; rfl
  · rw [natToStr, if_neg hn, digitsVal_natDigitsRev n n 0 le_rfl]
    simp

theorem natToStr_ne_nil (n : Nat) : natToStr n ≠ [] := by
  rw [natToStr]
  by_cases hn : n = 0
  · rw [if_pos hn]; simp
  · rw [if_neg hn]
    cases n with
    | zero => exact absurd rfl hn
    | succ m =>
      rw [natDigitsRev, if_neg hn]
      simp

theorem parseLit_self : ∀ (lit rest : List Char), parseLit lit (lit ++ rest) = some rest := by
  intro lit
  induction lit with
  | nil => intro rest; rfl
  | cons l ls ih =>
    intro rest
    rw [List.cons_append, parseLit, if_pos rfl, ih]

theorem parseStrChars_self :
    ∀ (s rest : List Char), (∀ c ∈ s, ¬ c = '"') →
      parseStrChars (s ++ '"' :: rest) = some (s, rest) := by
  intro s
  induction s with
  | nil => intro rest _; rw [List.nil_append, parseStrChars, if_pos rfl]
  | cons c cs ih =>
    intro rest h
    rw [List.cons_append, parseStrChars, if_neg (h c (List.mem_cons_self c cs)),
      ih rest (fun x hx => h x (List.mem_cons_of_mem _ hx))]
    rfl

theorem stringify_head_ne (t : Json) : ∃ c cs, stringify t = c :: cs ∧ c ≠ ']' := by
  cases t with
  | null => exact ⟨'n', _, rfl, by decide⟩
  | bool b =>
    cases b with
    | true => exact ⟨'t', _, rfl, by decide⟩
    | false => exact ⟨'f', _, rfl, by decide⟩
  | num n =>
    cases hstr : natToStr n with
    | nil => exact absurd hstr (natToStr_ne_nil n)
    | cons c cs =>
      refine ⟨c, cs, hstr, ?_⟩
      have hdig := natToStr_digits n c (by rw [hstr]; exact List.mem_cons_self c cs)
      intro e
      exact absurd (e ▸ hdig) (by decide)
  | str s => exact ⟨'"', _, rfl, by decide⟩
  | arr es => exact ⟨'[', _, rfl, by decide⟩
  | obj fs => exact ⟨'\x7b', _, rfl, by decide⟩

theorem parseVal_lbracket (fuel : Nat) (d : Char) (r2 : List Char) (hd : ¬ d = ']') :
    parseVal (fuel + 1) ('[' :: d :: r2) =
      (parseElems fuel (d :: r2)).map (fun p => (Json.arr p.1, p.2)) := by
  rw [parseVal]
  rw [if_neg (by decide), if_neg (by decide), if_neg (by decide), if_neg (by decide),
    if_pos rfl]
  show (if d = ']' then some (Json.arr JsonList.nil, r2)
        else (parseElems fuel (d :: r2)).map (fun p => (Json.arr p.1, p.2))) =
      (parseElems fuel (d :: r2)).map (fun p => (Json.arr p.1, p.2))
  exact if_neg hd

theorem parseVal_lbrace (fuel : Nat) (d : Char) (r2 : List Char) (hd : ¬ d = '\x7d') :
    parseVal (fuel + 1) ('\x7b' :: d :: r2) =
      (parseFields fuel (d :: r2)).map (fun p => (Json.obj p.1, p.2)) := by
  rw [parseVal]
  rw [if_neg (by decide), if_neg (by decide), if_neg (by decide), if_neg (by decide),
    if_neg (by decide), if_pos rfl]
  show (if d = '\x7d' then some (Json.obj JsonFields.nil, r2)
        else (parseFields fuel (d :: r2)).map (fun p => (Json.obj p.1, p.2))) =
      (parseFields fuel (d :: r2)).map (fun p => (Json.obj p.1, p.2))
  exact if_neg hd

theorem parseVal_quote (fuel : Nat) (rest : List Char) :
    parseVal (fuel + 1) ('"' :: rest) =
      (parseStrChars rest).map (fun p => (Json.str ⟨p.1⟩, p.2)) := rfl

theorem parseVal_digitHead (fuel : Nat) (c : Char) (rest : List Char)
    (hc : isDigitB c = true) :
    parseVal (fuel + 1) (c :: rest) =
      some (Json.num (parseNatDigits (c :: rest) 0).1, (parseNatDigits (c :: rest) 0).2) := by
  simp only [parseVal]
  rw [if_neg (fun e => absurd (e ▸ hc) (by decide)),
    if_neg (fun e => absurd (e ▸ hc) (by decide)),
    if_neg (fun e => absurd (e ▸ hc) (by decide)),
    if_neg (fun e => absurd (e ▸ hc) (by decide)),
    if_neg (fun e => absurd (e ▸ hc) (by decide)),
    if_neg (fun e => absurd (e ▸ hc) (by decide)), if_pos hc]

theorem parseFields_quote (fuel : Nat) (kd rest3 : List Char)
    (hk : ∀ c ∈ kd, ¬ c = '"') :
    parseFields (fuel + 1) ('"' :: (kd ++ '"' :: ':' :: rest3)) =
      (match parseVal fuel rest3 with
       | none => none
       | some (v, rest4) =>
         match rest4 with
         | [] => none
         | e :: r =>
           if e = ',' then
             (parseFields fuel r).map (fun p => (JsonFields.cons ⟨kd⟩ v p.1, p.2))
           else if e = '\x7d' then
             some (JsonFields.cons ⟨kd⟩ v JsonFields.nil, r)
           else none) := by
  rw [parseFields, if_pos rfl, parseStrChars_self kd (':' :: rest3) hk]
  rfl

theorem jsonFuel_pos : ∀ t : Json, 1 ≤ jsonFuel t := by
  intro t
  cases t <;> simp only [jsonFuel] <;> omega

theorem stringify_fuel_bound : ∀ t : Json, jsonFuel t ≤ (stringify t).length :=
  @Json.rec (fun t => jsonFuel t ≤ (stringify t).length)
    (fun es => elemsFuel es ≤ (stringifyElems es).length + 1)
    (fun fs => fieldsFuel fs ≤ (stringifyFields fs).length + 1)
    (by decide)
    (fun b => by cases b <;> decide)
    (fun n => by
      show (1 : Nat) ≤ (natToStr n).length
      exact List.length_pos.mpr (natToStr_ne_nil n))
    (fun s => by
      show (1 : Nat) ≤ ('"' :: (s.data ++ ['"'])).length
      simp)
    (fun es ih => by
      show jsonFuel (Json.arr es) ≤ (stringify (Json.arr es)).length
      rw [jsonFuel]
      show 1 + elemsFuel es ≤ ('[' :: (stringifyElems es ++ [']'])).length
      simp only [List.length_cons, List.length_append]
      omega)
    (fun fs ih => by
      show jsonFuel (Json.obj fs) ≤ (stringify (Json.obj fs)).length
      rw [jsonFuel]
      show 1 + fieldsFuel fs ≤ ('\x7b' :: (stringifyFields fs ++ ['\x7d'])).length
      simp only [List.length_cons, List.length_append]
      omega)
    (by decide)
    (fun h tl ih1 ih2 => by
      cases tl with
      | nil =>
        show elemsFuel (JsonList.cons h JsonList.nil) ≤
          (stringifyElems (JsonList.cons h JsonList.nil)).length + 1
        simp only [elemsFuel, stringifyElems]
        omega
      | cons h2 tl2 =>
        simp only [elemsFuel, stringifyElems, List.length_append, List.length_cons] at ih2 ⊢
        omega)
    (by decide)
    (fun k v tl ih1 ih2 => by
      cases tl with
      | nil =>
        show fieldsFuel (JsonFields.cons k v JsonFields.nil) ≤
          (stringifyFields (JsonFields.cons k v JsonFields.nil)).length + 1
        simp only [fieldsFuel, stringifyFields, List.length_cons, List.length_append]
        omega
      | cons k2 v2 tl2 =>
        simp only [fieldsFuel, stringifyFields, List.length_append, List.length_cons] at ih2 ⊢
        omega)

theorem parse_roundtrip :
    ∀ fuel : Nat,
      (∀ (t : Json) (rest : List Char), wfJson t = true → jsonFuel t ≤ fuel →
        headIsDigit rest = false →
        parseVal fuel (stringify t ++ rest) = some (t, rest)) ∧
      (∀ (h : Json) (tl : JsonList) (rest : List Char),
        wfElems (JsonList.cons h tl) = true → elemsFuel (JsonList.cons h tl) ≤ fuel →
        parseElems fuel (stringifyElems (JsonList.cons h tl) ++ ']' :: rest) =
          some (JsonList.cons h tl, rest)) ∧
      (∀ (k : String) (v : Json) (tl : JsonFields) (rest : List Char),
        wfFields (JsonFields.cons k v tl) = true →
        fieldsFuel (JsonFields.cons k v tl) ≤ fuel →
        parseFields fuel (stringifyFields (JsonFields.cons k v tl) ++ '\x7d' :: rest) =
          some (JsonFields.cons k v tl, rest)) := by
  intro fuel
  induction fuel with
  | zero =>
    refine ⟨fun t rest _ hf _ => ?_, fun h tl rest _ hf => ?_, fun k v tl rest _ hf => ?_⟩
    · exact absurd hf (by have := jsonFuel_pos t; omega)
    · simp only [elemsFuel] at hf; omega
    · simp only [fieldsFuel] at hf; omega
  | succ fuel ih =>
    refine ⟨?_, ?_, ?_⟩
    · intro t rest hwf hfuel hrest
      cases t with
      | null => exact rfl
      | bool b => cases b <;> exact rfl
      | num n =>
        cases hds : natToStr n with
        | nil => exact absurd hds (natToStr_ne_nil n)
        | cons c cs =>
          have hcdig : isDigitB c = true :=
            natToStr_digits n c (by rw [hds]; exact List.mem_cons_self c cs)
          show parseVal (fuel + 1) (natToStr n ++ rest) = some (Json.num n, rest)
          rw [hds, List.cons_append, parseVal_digitHead fuel c _ hcdig,
            ← List.cons_append, ← hds,
            parseNatDigits_spec (natToStr n) 0 rest (natToStr_digits n) hrest,
            digitsVal_natToStr]
      | str s =>
        have hq : ∀ c ∈ s.data, ¬ c = '"' := by
          intro c hcm e
          simp only [wfJson, strOk, List.all_eq_true, Bool.and_eq_true,
            decide_eq_true_eq] at hwf
          exact (hwf c hcm).1 e
        show parseVal (fuel + 1) (('"' :: (s.data ++ ['"'])) ++ rest) = some (Json.str s, rest)
        rw [List.cons_append, List.append_assoc, List.singleton_append, parseVal_quote,
          parseStrChars_self s.data rest hq]
        rfl
      | arr es =>
        cases es with
        | nil =>
          show parseVal (fuel + 1) ('[' :: ']' :: rest) = some (Json.arr JsonList.nil, rest)
          rfl
        | cons h tl =>
          have hwE : wfElems (JsonList.cons h tl) = true := by
            simp only [wfJson] at hwf; exact hwf
          have hfE : elemsFuel (JsonList.cons h tl) ≤ fuel := by
            simp only [jsonFuel] at hfuel; omega
          obtain ⟨c0, cs0, hc0, hcne⟩ := stringify_head_ne h
          have hE : ∃ Y, stringifyElems (JsonList.cons h tl) = c0 :: Y := by
            cases tl with
            | nil => exact ⟨cs0, by rw [stringifyElems]; exact hc0⟩
            | cons h2 tl2 =>
              refine ⟨cs0 ++ ',' :: stringifyElems (JsonList.cons h2 tl2), ?_⟩
              rw [stringifyElems, hc0, List.cons_append]
          obtain ⟨Y, hY⟩ := hE
          show parseVal (fuel + 1)
              (('[' :: (stringifyElems (JsonList.cons h tl) ++ [']'])) ++ rest) =
            some (Json.arr (JsonList.cons h tl), rest)
          rw [List.cons_append, List.append_assoc, List.singleton_append, hY,
            List.cons_append, parseVal_lbracket fuel c0 _ hcne, ← List.cons_append, ← hY,
            ih.2.1 h tl rest hwE hfE]
          rfl
      | obj fs =>
        cases fs with
        | nil =>
          show parseVal (fuel + 1) ('\x7b' :: '\x7d' :: rest) =
            some (Json.obj JsonFields.nil, rest)
          rfl
        | cons k v tl =>
          have hwF : wfFields (JsonFields.cons k v tl) = true := by
            simp only [wfJson] at hwf; exact hwf
          have hfF : fieldsFuel (JsonFields.cons k v tl) ≤ fuel := by
            simp only [jsonFuel] at hfuel; omega
          have hF : ∃ Y, stringifyFields (JsonFields.cons k v tl) = '"' :: Y := by
            cases tl with
            | nil => exact ⟨_, rfl⟩
            | cons k2 v2 tl2 => exact ⟨_, rfl⟩
          obtain ⟨Y, hY⟩ := hF
          show parseVal (fuel + 1)
              (('\x7b' :: (stringifyFields (JsonFields.cons k v tl) ++ ['\x7d'])) ++ rest) =
            some (Json.obj (JsonFields.cons k v tl), rest)
          rw [List.cons_append, List.append_assoc, List.singleton_append, hY,
            List.cons_append, parseVal_lbrace fuel '"' _ (by decide), ← List.cons_append,
            ← hY, ih.2.2 k v tl rest hwF hfF]
          rfl
    · intro h tl rest hw hf
      have hsplit : wfJson h = true ∧ wfElems tl = true := by
        rw [wfElems] at hw
        simp only [Bool.and_eq_true] at hw
        exact hw
      obtain ⟨hwh, hwtl⟩ := hsplit
      have hfh : jsonFuel h ≤ fuel := by
        simp only [elemsFuel] at hf; omega
      cases tl with
      | nil =>
        show parseElems (fuel + 1) (stringify h ++ ']' :: rest) =
          some (JsonList.cons h JsonList.nil, rest)
        rw [parseElems, ih.1 h (']' :: rest) hwh hfh (by rw [headIsDigit_cons]; decide)]
        rfl
      | cons h2 tl2 =>
        have hfe2 : elemsFuel (JsonList.cons h2 tl2) ≤ fuel := by
          simp only [elemsFuel] at hf ⊢; omega
        show parseElems (fuel + 1)
            ((stringify h ++ ',' :: stringifyElems (JsonList.cons h2 tl2)) ++ ']' :: rest) =
          some (JsonList.cons h (JsonList.cons h2 tl2), rest)
        rw [List.append_assoc, List.cons_append, parseElems,
          ih.1 h _ hwh hfh (by rw [headIsDigit_cons]; decide)]
        show (parseElems fuel (stringifyElems (JsonList.cons h2 tl2) ++ ']' :: rest)).map
            (fun p => (JsonList.cons h p.1, p.2)) =
          some (JsonList.cons h (JsonList.cons h2 tl2), rest)
        rw [ih.2.1 h2 tl2 rest hwtl hfe2]
        rfl
    · intro k v tl rest hw hf
      have hsplit : strOk k = true ∧ wfJson v = true ∧ wfFields tl = true := by
        rw [wfFields] at hw
        simp only [Bool.and_eq_true] at hw
        exact ⟨hw.1.1, hw.1.2, hw.2⟩
      obtain ⟨hkOk, hwv, hwtl⟩ := hsplit
      have hkq : ∀ c ∈ k.data, ¬ c = '"' := by
        intro c hcm e
        rw [strOk] at hkOk
        have := List.all_eq_true.mp hkOk c hcm
        simp only [Bool.and_eq_true, decide_eq_true_eq] at this
        exact this.1 e
      have hfv : jsonFuel v ≤ fuel := by
        simp only [fieldsFuel] at hf; omega
      cases tl with
      | nil =>
        show parseFields (fuel + 1)
            (('"' :: (k.data ++ ('"' :: ':' :: stringify v))) ++ '\x7d' :: rest) =
          some (JsonFields.cons k v JsonFields.nil, rest)
        rw [List.cons_append, List.append_assoc,
          show (('"' :: ':' :: stringify v) ++ '\x7d' :: rest : List Char) =
            '"' :: ':' :: (stringify v ++ '\x7d' :: rest) from rfl,
          parseFields_quote fuel k.data _ hkq,
          ih.1 v _ hwv hfv (by rw [headIsDigit_cons]; decide)]
        rfl
      | cons k2 v2 tl2 =>
        have hftl2 : fieldsFuel (JsonFields.cons k2 v2 tl2) ≤ fuel := by
          simp only [fieldsFuel] at hf ⊢; omega
        show parseFields (fuel + 1)
            ((('"' :: (k.data ++ ('"' :: ':' :: stringify v))) ++
              ',' :: stringifyFields (JsonFields.cons k2 v2 tl2)) ++ '\x7d' :: rest) =
          some (JsonFields.cons k v (JsonFields.cons k2 v2 tl2), rest)
        rw [List.append_assoc,
          show ((',' :: stringifyFields (JsonFields.cons k2 v2 tl2)) ++ '\x7d' :: rest :
              List Char) =
            ',' :: (stringifyFields (JsonFields.cons k2 v2 tl2) ++ '\x7d' :: rest) from rfl,
          List.cons_append, List.append_assoc,
          show (('"' :: ':' :: stringify v) ++
              (',' :: (stringifyFields (JsonFields.cons k2 v2 tl2) ++ '\x7d' :: rest)) :
              List Char) =
            '"' :: ':' :: (stringify v ++
              ',' :: (stringifyFields (JsonFields.cons k2 v2 tl2) ++ '\x7d' :: rest)) from rfl,
          parseFields_quote fuel k.data _ hkq,
          ih.1 v _ hwv hfv (by rw [headIsDigit_cons]; decide)]
        show (parseFields fuel (stringifyFields (JsonFields.cons k2 v2 tl2) ++ '\x7d' :: rest)).map
            (fun p => (JsonFields.cons ⟨k.data⟩ v p.1, p.2)) =
          some (JsonFields.cons k v (JsonFields.cons k2 v2 tl2), rest)
        rw [ih.2.2 k2 v2 tl2 rest hwtl hftl2]
        rfl

theorem parseJson_stringify (t : Json) (hwf : wfJson t = true) :
    parseJson ⟨stringify t⟩ = some t := by
  have hlen := stringify_fuel_bound t
  have hrt := (parse_roundtrip ((stringify t).length + 1)).1 t [] hwf (by omega) rfl
  rw [List.append_nil] at hrt
  show (match parseVal ((stringify t).length + 1) (stringify t) with
        | some (u, []) => some u
        | _ => none) = some t
  rw [hrt]

/-- C7: for every tree (with serializable strings, i.e. no `"` or `\`),
feeding the JSON string encoding to `parseHocrContentForEntities` gives
the same mapping as feeding the tree directly; and on a string the
parser rejects, the parse failure is handled locally and the result is
the empty mapping. -/
theorem C7_input_shape_invariance :
    (∀ t : Json, wfJson t = true →
      parseHocrContentForEntities (Sum.inl ⟨stringify t⟩) =
        parseHocrContentForEntities (Sum.inr t)) ∧
    (∀ s : String, parseJson s = none →
      parseHocrContentForEntities (Sum.inl s) = []) := by
  constructor
  · intro t hwf
    show (match parseJson ⟨stringify t⟩ with
          | some u => buildMapping (assigns u)
          | none => []) = buildMapping (assigns t)
    rw [parseJson_stringify t hwf]
  · intro s hp
    show (match parseJson s with
          | some u => buildMapping (assigns u)
          | none => []) = ([] : List (String × String))
    rw [hp]

theorem C7_input_shape_invariance_witness :
    (parseHocrContentForEntities (Sum.inl ⟨stringify c3Deep⟩) =
        parseHocrContentForEntities (Sum.inr c3Deep) ∧
      parseHocrContentForEntities (Sum.inl "not json") = []) ∧
    wfJson c3Deep = true ∧ parseJson "not json" = none :=
  ⟨⟨C7_input_shape_invariance.1 c3Deep (by decide),
    C7_input_shape_invariance.2 "not json" (by decide)⟩,
   by decide, by decide⟩

theorem C3_traversal_amended_witness :
    (c3Berlin ∈ visits c3Tree ∧
      (textKeyOf c3BerlinFields, entityKeyOf c3BerlinFields) ∈ assigns c3Tree) ∧
    (textKeyOf c3BerlinFields, entityKeyOf c3BerlinFields) = ("Berlin", "city") :=
  ⟨⟨C3_traversal_amended.1 c3Tree c3Berlin (by decide),
    C3_traversal_amended.2.1 c3Tree c3BerlinFields (by decide) (by decide)⟩,
   by decide⟩

end CibPop
